import Mathlib

/-!
# Homework3.c: a small command shell

A shallow embedding of `src/Homework3.c` and theorems about it.

Conventions of the embedding.

* A C string is the list of its characters before the terminating NUL
  (`CString`).  A `char*` that may be `NULL` is an `Option CString`.
* The buffers the program writes strings into are tracked by their sizes: the
  block `token` points into (`calloc(strlen(command) + 1)`, written by the
  `strcpy` of line 188) and the static `expandedToken[MAX_LENGTH]` (written by
  `expand`).  A string of `n` characters takes `n + 1` bytes.  The block
  `outFile` (`calloc(strlen(command) + 1)`, written by the `sprintf` of line
  208) needs no test: a token is never longer than the line
  (`lexLine_token_length`).  `inFile` and the entries of `args` are blocks that
  `strdup` sizes itself.
* The two fixed arrays `args` and `processArray` are tracked (index checks
  against `MAX_ARGS`), and so is the pointer handed to `free`.
* The globals `backgroundMode`, `statusFlag`, `processArray`, `processIndex`
  form the record `ShellState`, passed explicitly.
* What the operating system answers during one call of `processCommand`
  (`getpid`, `fork`, `waitpid`, `chdir`, `open`, `dup2`, `execvp`) is the record
  `Env`.  What the process does to the outside is a list of `Event`s.
* Undefined behaviour (a `NULL` string read, an index outside an array, a
  write past the end of a buffer, an invalid `free`) ends the run with
  `Outcome.fault`.
* No signal is delivered while `processCommand` runs: `backgroundMode` is read
  from the state the call starts in.
-/

namespace Homework3

/-- A C string: its characters before the terminating NUL. -/
abbrev CString := List Char

/-- Line 18: `#define MAX_LENGTH 2049`. -/
def MAX_LENGTH : Nat := 2049

/-- Line 19: `#define MAX_ARGS 512`. -/
def MAX_ARGS : Nat := 512

/-! ## C library functions used by the program -/

/-- The text `printf("%d", i)` produces. -/
def decimal : Int → CString
  | Int.ofNat n => Nat.toDigits 10 n
  | Int.negSucc n => '-' :: Nat.toDigits 10 (n + 1)

/-- Library `strstr(hay, needle)`: the offset of the first occurrence of `needle`
in `hay`, or `none` for `NULL`. -/
def strstr : CString → CString → Option Nat
  | [], needle => if needle = [] then some 0 else none
  | c :: rest, needle =>
    if needle.isPrefixOf (c :: rest) then some 0
    else (strstr rest needle).map (· + 1)

/-- Library `strspn(s, delim)` for a one-character `delim`: the length of the
leading run of delimiters. -/
def strspn (s : CString) (delim : Char) : Nat :=
  (s.takeWhile (· == delim)).length

/-- Library `strcspn(s, delim)` for a one-character `delim`: the length of the
leading run of non-delimiters. -/
def strcspn (s : CString) (delim : Char) : Nat :=
  (s.takeWhile (· != delim)).length

/-- Library `strtok_r` scanning from `s` (the string of a first call, or the saved
pointer of a call with `NULL`) with a one-character delimiter set: leading
delimiters are skipped; `none` is the `NULL` returned when nothing is left;
otherwise the token and the new saved pointer (just past the delimiter that
ended the token, or the end of the string). -/
def strtok_r (s : CString) (delim : Char) : Option (CString × CString) :=
  let s1 := s.drop (strspn s delim)
  if s1.isEmpty then none
  else some (s1.take (strcspn s1 delim), s1.drop (strcspn s1 delim + 1))

/-- Macro `WIFEXITED(status)` of the C library: `(status & 0x7f) == 0`. -/
def WIFEXITED (status : Nat) : Bool := (status &&& 0x7f) == 0

/-- Macro `WEXITSTATUS(status)` of the C library: `(status & 0xff00) >> 8`. -/
def WEXITSTATUS (status : Nat) : Nat := (status &&& 0xff00) >>> 8

/-- Macro `WTERMSIG(status)` of the C library: `status & 0x7f`. -/
def WTERMSIG (status : Nat) : Nat := status &&& 0x7f

/-- The wait status of a child that exited with `code` (`code << 8`). -/
def exitedStatus (code : Nat) : Nat := code <<< 8

/-- The wait status of a child killed by signal `sig`; bit `0x80` is the
core-dump flag. -/
def signaledStatus (sig : Nat) (core : Bool) : Nat :=
  sig ||| (if core then 0x80 else 0)

/-! ## Data -/

/-- The globals of lines 24-34.  `processArray` holds the `MAX_ARGS` slots of the
array, `0` standing for `NULL`. `statusFlag` is a wait status word. -/
structure ShellState where
  backgroundMode : Int
  statusFlag : Nat
  processArray : List Int
  processIndex : Nat
deriving DecidableEq, Repr

/-- The globals as initialised at lines 24-34. -/
def initialState : ShellState :=
  { backgroundMode := 0, statusFlag := 0,
    processArray := List.replicate MAX_ARGS 0, processIndex := 0 }

/-- The locals of `processCommand` that describe the parsed line once line 243
is reached: `args[0 .. argsIndex-1]` (the spec's `argv`), `inFile`
(`input_path`, empty when unset), `outFile` (`output_path`, empty when unset)
and `backgroundFlag` (`background`). -/
structure Command where
  args : List CString
  inFile : CString
  outFile : CString
  backgroundFlag : Int
deriving DecidableEq, Repr

/-- Undefined behaviour the embedding detects. -/
inductive Fault
  /-- a `NULL` pointer read as a string (`strcmp`, `strdup`, `"%s"`) -/
  | nullString
  /-- access `args[i]` with `i` outside `0 .. MAX_ARGS-1` -/
  | argsIndex
  /-- access `processArray[i]` with `i` outside `0 .. MAX_ARGS-1` -/
  | processArrayIndex
  /-- an argument of `free` that is not the pointer `calloc` returned -/
  | invalidFree
  /-- a `printf` whose format argument is not a string (lines 298, 316) -/
  | badFormat
  /-- a write past the end of the block `token` points into (`strcpy`, line
  188) -/
  | tokenOverrun
  /-- a write past the end of `expandedToken` (`strncpy` and `sprintf`, lines
  127-131) -/
  | expandedTokenOverrun
deriving DecidableEq, Repr

/-- What `waitpid` answers: its return value, and the status word it stores when
that value is a process identifier (positive). -/
structure WaitAnswer where
  ret : Int
  status : Nat
deriving DecidableEq, Repr

/-- How a file is opened by the child. -/
inductive OpenHow
  /-- flags `O_WRONLY | O_CREAT | O_TRUNC` with the given mode -/
  | writeCreateTrunc (mode : Nat)
  /-- flag `O_RDONLY` -/
  | readOnly
deriving DecidableEq, Repr

/-- The actions of the process that are visible outside it. -/
inductive Event
  /-- text sent to standard output -/
  | write (text : CString)
  /-- call `perror(msg)` -/
  | perror (msg : CString)
  /-- call `chdir(getenv("HOME"))` -/
  | chdirHome
  /-- call `chdir(path)` -/
  | chdir (path : CString)
  /-- call `kill(pid, sig)` -/
  | kill (pid : Int) (sig : Int)
  /-- call `fork()` -/
  | fork
  /-- call `waitpid(pid, &statusFlag, nohang ? WNOHANG : 0)` and its answer -/
  | wait (pid : Int) (nohang : Bool) (answer : WaitAnswer)
  /-- call `sigaction(SIGINT, ...)` with handler `SIG_DFL` -/
  | sigintDefault
  /-- call `open(path, ...)` -/
  | openFile (path : CString) (how : OpenHow)
  /-- call `dup2(fd, target)` -/
  | dup2 (fd : Int) (target : Int)
  /-- call `close(fd)` -/
  | close (fd : Int)
  /-- call `execvp(file, argv)` -/
  | execvp (file : CString) (argv : List CString)
deriving DecidableEq, Repr

/-- How a call of `processCommand` ends. -/
inductive Outcome
  /-- the call ended with `return 0` to `main`, with the globals as given -/
  | returned (s : ShellState)
  /-- the process called `exit(code)` -/
  | exited (code : Int)
  /-- the call to `execvp` succeeded: the (child) process now runs another program -/
  | replaced
  /-- undefined behaviour was reached -/
  | fault (f : Fault)
  /-- a loop did not finish within the bound the embedding gives it -/
  | diverged
deriving DecidableEq, Repr

/-- A run: what was done, and how it ended. -/
structure Result where
  trace : List Event
  outcome : Outcome
deriving DecidableEq, Repr

/-- The answers of the operating system during one call of `processCommand`. -/
structure Env where
  /-- the value of `getpid()` -/
  pid : Int
  /-- the value returned by `chdir` -/
  chdir : Int
  /-- the value returned by `fork()`: `-1`, `0` in the child, the child's
  identifier in the parent -/
  fork : Int
  /-- the answer of `waitpid(spawnPID, &statusFlag, ...)` (lines 369, 376) -/
  waitChild : WaitAnswer
  /-- the answers of the successive `waitpid(-1, &statusFlag, WNOHANG)` of the
  sweep (lines 383, 388); once the list is used up the call answers `-1` -/
  waitAny : List WaitAnswer
  /-- the descriptor returned by `open(path, ...)`, `-1` on failure -/
  openFile : CString → Int
  /-- the value returned by `dup2(fd, target)` -/
  dup2 : Int → Int → Int
  /-- the value `execvp` returns, `none` when it replaces the program image -/
  execvp : Option Int

/-! ## The functions of the program -/

/-- The bytes `write(fd, message, count)` sends when `message` is a string
literal: the first `count` bytes of its storage, which holds the characters
of the literal and then the terminating NUL (in this program `count` never
reaches past that NUL). -/
def literalBytes (message : CString) (count : Nat) : CString :=
  (message ++ [Char.ofNat 0]).take count

/-- Lines 52-68, `catchSIGTSTP`: what is written to standard output, and the
globals afterwards. -/
def catchSIGTSTP (s : ShellState) : List Event × ShellState :=
  if s.backgroundMode = 0 then
    ([Event.write
        (literalBytes "Entering foreground-only mode (& is now ignored)\n".toList 50)],
      { s with backgroundMode := 1 })
  else
    ([Event.write (literalBytes "Exiting foreground-only mode\n".toList 30)],
      { s with backgroundMode := 0 })

/-- Lines 75-87, `getStatus`: the text it prints for the status word given. -/
def getStatus (statusFlag : Nat) : CString :=
  if WIFEXITED statusFlag then
    "exit value ".toList ++ decimal (WEXITSTATUS statusFlag) ++ ['\n']
  else
    "terminated by signal ".toList ++ decimal statusFlag ++ ['\n']

/-- Lines 94-111, `changeDirectory(args, argsIndex)`: `args` holds the
`argsIndex` entries of the array that are not `NULL`. -/
def changeDirectory (env : Env) (args : List CString) : List Event × Option Fault :=
  if args.length = 1 then ([Event.chdirHome], none)
  else
    match args[1]? with
    | none => ([], some Fault.nullString)
    | some targetDir =>
      if env.chdir ≠ 0 then
        ([Event.chdir targetDir, Event.write "Directory name is invalid.\n".toList], none)
      else ([Event.chdir targetDir], none)

/-- Lines 117-134, `expand(input, orig, pid)`: the string it returns.  That is
`input` itself when `orig` does not occur in it.  Otherwise the text, with the
first occurrence of `orig` replaced by the decimal text of `pid`, is built in
the static `expandedToken[MAX_LENGTH]` (the part before the occurrence by
`strncpy` and line 128, the rest by `sprintf`): the characters of the text and
the terminating NUL are written from the start of the array on, which is a
write past its end when they are more than `MAX_LENGTH` bytes. -/
def expand (input orig : CString) (pid : Int) : Except Fault CString :=
  match strstr input orig with
  | none => Except.ok input
  | some k =>
    if (input.take k ++ (decimal pid ++ input.drop (k + orig.length))).length + 1
        ≤ MAX_LENGTH then
      Except.ok (input.take k ++ (decimal pid ++ input.drop (k + orig.length)))
    else Except.error Fault.expandedTokenOverrun

/-- Lines 184-189, the loop `while (strstr(token, "$$") != NULL)`, run for at
most `fuel` tests of its condition; `none` when it has not finished by then.
`room` is the number of bytes from where `token` points to the end of its
block: `strcpy(token, expansion)` writes the characters of `expansion` and the
terminating NUL there, past the end of the block when they are more than
`room` bytes. -/
def expandLoop : Nat → Nat → Int → CString → Option (Except Fault CString)
  | 0, _, _, _ => none
  | fuel + 1, room, pid, token =>
    match strstr token "$$".toList with
    | none => some (Except.ok token)
    | some _ =>
      match expand token "$$".toList pid with
      | Except.error f => some (Except.error f)
      | Except.ok expansion =>
        if expansion.length + 1 ≤ room then expandLoop fuel room pid expansion
        else some (Except.error Fault.tokenOverrun)

/-- The values `strtok_r(NULL, " ", &savePTR)` returns in turn, from the saved
pointer `s` up to the first `NULL`, computed in at most `fuel` calls. -/
def restTokens : Nat → CString → List CString
  | 0, _ => []
  | fuel + 1, s =>
    match strtok_r s ' ' with
    | none => []
    | some (token, savePTR) => token :: restTokens fuel savePTR

/-- All the tokens `strtok_r` finds in `s` with delimiter `" "`; a string of `n`
characters needs at most `n + 1` calls. -/
def tokens (s : CString) : List CString := restTokens (s.length + 1) s

/-- Lines 202-226, the loop `while (token != NULL)` over the tokens that
`strtok_r` delivers (`toks`: the current token and those that follow),
starting from the locals in `c`.  After `">"` or `"<"` the next token is taken
as the file name without a test for `NULL`. -/
def scanTokens : List CString → Command → Except Fault Command
  | [], c => Except.ok c
  | token :: rest, c =>
    if token = ">".toList then
      match rest with
      | [] => Except.error Fault.nullString
      | file :: rest2 => scanTokens rest2 { c with outFile := file }
    else if token = "<".toList then
      match rest with
      | [] => Except.error Fault.nullString
      | file :: rest2 => scanTokens rest2 { c with inFile := file }
    else if c.args.length < MAX_ARGS then
      scanTokens rest { c with args := c.args ++ [token] }
    else Except.error Fault.argsIndex

/-- Lines 228-243: the test of `args[argsIndex - 1]` against `"&"`. -/
def stripBackground (backgroundMode : Int) (c : Command) : Except Fault Command :=
  match c.args.getLast? with
  | none => Except.error Fault.argsIndex
  | some last =>
    if last = "&".toList then
      Except.ok { c with args := c.args.dropLast,
                         backgroundFlag := if backgroundMode = 0 then 1 else 0 }
    else Except.ok c

/-- What lines 146-198 of `processCommand` make of the line, before the loop
over its tokens. -/
inductive Lexed
  /-- the line is ignored (lines 174-180 or 192-198); `free(token)` is called
  with `token` at `offset` characters past the start of its buffer -/
  | ignored (offset : Nat)
  /-- the loop of line 202 is entered; `toks` are the first token and the ones
  `strtok_r` returns after it -/
  | tokens (toks : List CString)
  /-- undefined behaviour was reached -/
  | fault (f : Fault)
  /-- the expansion loop did not finish within its bound -/
  | diverged
deriving DecidableEq, Repr

/-- What lines 146-243 of `processCommand` make of the line. -/
inductive Parse
  /-- the line is ignored; `free(token)` is called with `token` at `offset`
  characters past the start of its buffer -/
  | ignored (offset : Nat)
  /-- line 243 is passed with these locals -/
  | command (c : Command)
  /-- undefined behaviour was reached -/
  | fault (f : Fault)
  /-- the expansion loop did not finish within its bound -/
  | diverged
deriving DecidableEq, Repr

/-- Lines 146-198 of `processCommand`: newline removal, the comment tests, the
expansion of `"$$"`, and the tokens of the expanded line.  The block of
`token` has `strlen(command) + 1` bytes (line 146), and `strtok_r` has moved
`token` past the newlines the line begins with. -/
def lexLine (pid : Int) (command : CString) : Lexed :=
  match strtok_r command '\n' with
  | none => Lexed.fault Fault.nullString
  | some (token, _) =>
    if token = [] ∨ token = "#".toList ∨ token.head? = some '#' then
      Lexed.ignored (strspn command '\n')
    else
      match expandLoop (token.length + 1) (command.length + 1 - strspn command '\n') pid
          token with
      | none => Lexed.diverged
      | some (Except.error f) => Lexed.fault f
      | some (Except.ok expanded) =>
        match strtok_r expanded ' ' with
        | none => Lexed.fault Fault.nullString
        | some (first, savePTR) =>
          if first = "#".toList then
            Lexed.ignored (strspn command '\n' + strspn expanded ' ')
          else Lexed.tokens (first :: restTokens (savePTR.length + 1) savePTR)

/-- The locals `args`, `inFile`, `outFile`, `backgroundFlag` as lines 152-160
initialise them. -/
def emptyCommand : Command :=
  { args := [], inFile := [], outFile := [], backgroundFlag := 0 }

/-- Lines 202-243 of `processCommand`: the loop over the tokens and the test for
a trailing `"&"`. -/
def buildCommand (backgroundMode : Int) (toks : List CString) : Parse :=
  match scanTokens toks emptyCommand with
  | Except.error f => Parse.fault f
  | Except.ok c =>
    match stripBackground backgroundMode c with
    | Except.error f => Parse.fault f
    | Except.ok c2 => Parse.command c2

/-- Lines 146-243 of `processCommand`. -/
def parseLine (backgroundMode : Int) (pid : Int) (command : CString) : Parse :=
  match lexLine pid command with
  | Lexed.ignored offset => Parse.ignored offset
  | Lexed.fault f => Parse.fault f
  | Lexed.diverged => Parse.diverged
  | Lexed.tokens toks => buildCommand backgroundMode toks

/-- Lines 254-259, the loop `while (processArray[i] != NULL)` of `exit`, from the
slots `processArray[i ..]` that remain: the `kill` calls made, and the fault
when `i` reaches the end of the array. -/
def killLoop : List Int → List Event × Option Fault
  | [] => ([], some Fault.processArrayIndex)
  | p :: rest =>
    if p = 0 then ([], none)
    else ((Event.kill p 9) :: (killLoop rest).1, (killLoop rest).2)

/-- The status word after a `waitpid(..., &statusFlag, ...)` that answered `w`. -/
def storeStatus (statusFlag : Nat) (w : WaitAnswer) : Nat :=
  if w.ret > 0 then w.status else statusFlag

/-- Lines 383-390, the sweep `waitpid(-1, &statusFlag, WNOHANG)` repeated while it
returns a positive identifier: its events and the final `statusFlag`. -/
def sweep : List WaitAnswer → Nat → List Event × Nat
  | [], statusFlag => ([Event.wait (-1) true { ret := -1, status := 0 }], statusFlag)
  | w :: ws, statusFlag =>
    if w.ret > 0 then
      (Event.wait (-1) true w
        :: Event.write ("background pid ".toList ++ decimal w.ret ++ " is done: ".toList)
        :: Event.write (getStatus w.status)
        :: (sweep ws w.status).1, (sweep ws w.status).2)
    else ([Event.wait (-1) true w], statusFlag)

/-- Lines 295-308 and 313-326: open `path` for writing and make it standard
output; `some` outcome when the child ends here. -/
def redirectOutput (env : Env) (path outFile : CString) : List Event × Option Outcome :=
  let outputFile := env.openFile path
  if outputFile = -1 then
    ([Event.openFile path (OpenHow.writeCreateTrunc 0o644)],
      some (Outcome.fault Fault.badFormat))
  else if env.dup2 outputFile 1 = -1 then
    ([Event.openFile path (OpenHow.writeCreateTrunc 0o644), Event.dup2 outputFile 1,
      Event.write ("failed to output to ".toList ++ outFile ++ ['\n'])],
      some (Outcome.exited 1))
  else
    ([Event.openFile path (OpenHow.writeCreateTrunc 0o644), Event.dup2 outputFile 1,
      Event.close outputFile], none)

/-- Lines 332-345: open `inFile` for reading and make it standard input. -/
def redirectInput (env : Env) (inFile : CString) : List Event × Option Outcome :=
  let inputFile := env.openFile inFile
  if inputFile = -1 then
    ([Event.openFile inFile OpenHow.readOnly,
      Event.write ("cannot open ".toList ++ inFile ++ " for input\n".toList)],
      some (Outcome.exited 1))
  else if env.dup2 inputFile 0 = -1 then
    ([Event.openFile inFile OpenHow.readOnly, Event.dup2 inputFile 0,
      Event.write ("failed to open ".toList ++ inFile ++ ", file cannot be found\n".toList)],
      some (Outcome.exited 1))
  else
    ([Event.openFile inFile OpenHow.readOnly, Event.dup2 inputFile 0,
      Event.close inputFile], none)

/-- Lines 348-356: `execvp(args[0], args)` and what follows when it returns.
`execvp` reads the entries of `args` up to the first `NULL`: when all
`MAX_ARGS` entries of the array hold an argument there is none, and the
entry `args[MAX_ARGS]` is read. -/
def execute (s : ShellState) (env : Env) (c : Command) : List Event × Option Outcome :=
  match c.args with
  | [] => ([], some (Outcome.fault Fault.nullString))
  | file :: _ =>
    if c.args.length < MAX_ARGS then
      match env.execvp with
      | none => ([Event.execvp file c.args], some Outcome.replaced)
      | some forkReturn =>
        if forkReturn < 0 then
          ([Event.execvp file c.args,
            Event.write (file ++ ": no such file or directory\n".toList)],
            some (Outcome.exited 1))
        else ([Event.execvp file c.args], some (Outcome.returned s))
    else ([], some (Outcome.fault Fault.argsIndex))

/-- Run `next` after `first` unless `first` already ended the process. -/
def andThen (first next : List Event × Option Outcome) : List Event × Option Outcome :=
  match first.2 with
  | some o => (first.1, some o)
  | none => (first.1 ++ next.1, next.2)

/-- Lines 283-357, `case 0` of the switch: the child. -/
def child (s : ShellState) (env : Env) (c : Command) : List Event × Option Outcome :=
  andThen (if c.backgroundFlag = 0 then ([Event.sigintDefault], none) else ([], none))
  (andThen (if c.outFile = [] ∧ c.backgroundFlag = 1
            then redirectOutput env "/dev/null".toList c.outFile else ([], none))
  (andThen (if c.outFile ≠ [] then redirectOutput env c.outFile c.outFile else ([], none))
  (andThen (if c.inFile ≠ [] then redirectInput env c.inFile else ([], none))
  (execute s env c))))

/-- Lines 382-391 and the return at line 399: the sweep, made when
`backgroundMode == 0`, after the events `before`. -/
def sweepAndReturn (s : ShellState) (env : Env) (before : List Event) : Result :=
  if s.backgroundMode = 0 then
    { trace := before ++ (sweep env.waitAny s.statusFlag).1,
      outcome := Outcome.returned { s with statusFlag := (sweep env.waitAny s.statusFlag).2 } }
  else { trace := before, outcome := Outcome.returned s }

/-- Lines 359-391, `default` of the switch: the parent. -/
def parent (s : ShellState) (env : Env) (c : Command) : Result :=
  if c.backgroundFlag = 1 ∧ s.backgroundMode = 0 then
    if s.processIndex < MAX_ARGS then
      sweepAndReturn
        { s with processArray := s.processArray.set s.processIndex env.fork,
                 processIndex := s.processIndex + 1,
                 statusFlag := storeStatus s.statusFlag env.waitChild }
        env
        [Event.fork, Event.wait env.fork true env.waitChild,
         Event.write ("background pid is ".toList ++ decimal env.fork ++ ['\n'])]
    else { trace := [Event.fork], outcome := Outcome.fault Fault.processArrayIndex }
  else
    sweepAndReturn { s with statusFlag := storeStatus s.statusFlag env.waitChild } env
      [Event.fork, Event.wait env.fork false env.waitChild]

/-- Lines 270-393: `fork()` and the switch on its value. -/
def launch (s : ShellState) (env : Env) (c : Command) : Result :=
  if env.fork = -1 then
    { trace := [Event.fork, Event.perror "fork() failed!".toList], outcome := Outcome.exited 1 }
  else if env.fork = 0 then
    match (child s env c).2 with
    | some o => { trace := Event.fork :: (child s env c).1, outcome := o }
    | none => { trace := Event.fork :: (child s env c).1, outcome := Outcome.returned s }
  else parent s env c

/-- Lines 245-393: the built-ins `cd`, `exit`, `status`, and the launch of any
other command. -/
def dispatch (s : ShellState) (env : Env) (c : Command) : Result :=
  match c.args with
  | [] => { trace := [], outcome := Outcome.fault Fault.nullString }
  | arg0 :: _ =>
    if arg0 = "cd".toList then
      match (changeDirectory env c.args).2 with
      | some f => { trace := (changeDirectory env c.args).1, outcome := Outcome.fault f }
      | none => { trace := (changeDirectory env c.args).1, outcome := Outcome.returned s }
    else if arg0 = "exit".toList then
      match (killLoop s.processArray).2 with
      | some f => { trace := (killLoop s.processArray).1, outcome := Outcome.fault f }
      | none => { trace := (killLoop s.processArray).1, outcome := Outcome.exited 0 }
    else if arg0 = "status".toList then
      { trace := [Event.write (getStatus s.statusFlag)], outcome := Outcome.returned s }
    else launch s env c

/-- Lines 143-401, `processCommand(command)`. -/
def processCommand (s : ShellState) (env : Env) (command : CString) : Result :=
  match parseLine s.backgroundMode env.pid command with
  | Parse.fault f => { trace := [], outcome := Outcome.fault f }
  | Parse.diverged => { trace := [], outcome := Outcome.diverged }
  | Parse.ignored offset =>
    if offset = 0 then { trace := [], outcome := Outcome.returned s }
    else { trace := [], outcome := Outcome.fault Fault.invalidFree }
  | Parse.command c => dispatch s env c

/-- Lines 430-437 of `main`: what is done with the line `fgets` has stored in
`command`. -/
def mainStep (s : ShellState) (env : Env) (command : CString) : Result :=
  if command.head? = some '\n' then { trace := [], outcome := Outcome.returned s }
  else processCommand s env command

/-- The loop of `main` over the lines given, each with the answers the operating
system gives while it is processed; it stops at the first line that does not
return. -/
def runSession : ShellState → List (Env × CString) → Result
  | s, [] => { trace := [], outcome := Outcome.returned s }
  | s, (env, command) :: more =>
    match (mainStep s env command).outcome with
    | Outcome.returned s2 =>
      { trace := (mainStep s env command).trace ++ (runSession s2 more).trace,
        outcome := (runSession s2 more).outcome }
    | o => { trace := (mainStep s env command).trace, outcome := o }

/-! ## Notions of the specification -/

/-- One pass over the line from left to right that replaces each occurrence of
`"$$"` met by `d` and copies every other character. -/
def replaceMarkers (d : CString) : CString → CString
  | '$' :: '$' :: rest => d ++ replaceMarkers d rest
  | c :: rest => c :: replaceMarkers d rest
  | [] => []

/-- The line split on runs of space characters: the non-empty pieces between
spaces, in order. -/
def splitSpaces (line : CString) : List CString :=
  (line.splitOn ' ').filter (fun piece => piece ≠ [])

/-- The identifiers the Process Table holds: the slots in use. -/
def tracked (s : ShellState) : List Int := s.processArray.take s.processIndex

/-- The table is as the program keeps it: `MAX_ARGS` slots, the first
`processIndex` of them holding identifiers (none of them `NULL`), the others
`NULL`. -/
def WellFormed (s : ShellState) : Prop :=
  s.processIndex ≤ MAX_ARGS ∧ s.processArray.length = MAX_ARGS ∧
    (∀ p ∈ tracked s, p ≠ 0) ∧
    s.processArray.drop s.processIndex = List.replicate (MAX_ARGS - s.processIndex) 0

/-- What a call that returns may have done to the table of `s`: nothing, or the
identifier `child` (not `NULL`) stored in the first free slot.  The mode is
left as it was. -/
def TableStep (s : ShellState) (child : Int) (s2 : ShellState) : Prop :=
  s2.backgroundMode = s.backgroundMode ∧
  ((s2.processArray = s.processArray ∧ s2.processIndex = s.processIndex) ∨
   (child ≠ 0 ∧ s.processIndex < MAX_ARGS ∧
    s2.processArray = s.processArray.set s.processIndex child ∧
    s2.processIndex = s.processIndex + 1))

/-- A piece of a command line: an ordinary token, or a redirection operator
together with the token that follows it. -/
inductive Item
  /-- a token that is neither `"<"` nor `">"` -/
  | word (w : CString)
  /-- the token `"<"` and the token after it -/
  | input (file : CString)
  /-- the token `">"` and the token after it -/
  | output (file : CString)
deriving DecidableEq, Repr

/-- The tokens the items stand for, in order. -/
def renderItems : List Item → List CString
  | [] => []
  | Item.word w :: more => w :: renderItems more
  | Item.input file :: more => "<".toList :: file :: renderItems more
  | Item.output file :: more => ">".toList :: file :: renderItems more

/-- The ordinary tokens among the items, in order. -/
def words : List Item → List CString
  | [] => []
  | Item.word w :: more => w :: words more
  | Item.input _ :: more => words more
  | Item.output _ :: more => words more

/-- The token after the last `"<"` among the items, `unset` when there is
none. -/
def lastInput : List Item → CString → CString
  | [], unset => unset
  | Item.input file :: more, _ => lastInput more file
  | Item.word _ :: more, unset => lastInput more unset
  | Item.output _ :: more, unset => lastInput more unset

/-- The token after the last `">"` among the items, `unset` when there is
none. -/
def lastOutput : List Item → CString → CString
  | [], unset => unset
  | Item.output file :: more, _ => lastOutput more file
  | Item.word _ :: more, unset => lastOutput more unset
  | Item.input _ :: more, unset => lastOutput more unset

/-- The list without its last element when that element is `"&"`. -/
def dropAmpersand (args : List CString) : List CString :=
  if args.getLast? = some "&".toList then args.dropLast else args

/-- The line `a a a ... a ` of `n` tokens `a`, each followed by one space. -/
def manyWords : Nat → CString
  | 0 => []
  | n + 1 => 'a' :: ' ' :: manyWords n

/-- Answers of the operating system for a shell in which nothing special
happens: the child `101` of a foreground command has ended with status 0 when
waited for, and no other child is waiting to be reaped. -/
def quietEnv : Env :=
  { pid := 1234, chdir := 0, fork := 101, waitChild := { ret := 101, status := 0 },
    waitAny := [], openFile := fun _ => 3, dup2 := fun _ target => target, execvp := none }

/-- Answers while a background command is launched as the child `child`: it has
not ended when the non-blocking wait is made, and no child is waiting to be
reaped. -/
def backgroundEnv (child : Int) : Env :=
  { quietEnv with fork := child, waitChild := { ret := 0, status := 0 },
                  waitAny := [{ ret := 0, status := 0 }] }

/-- Answers while a foreground command runs as the child `child` and ends with the
status word `status`, the children listed in `ended` (identifier and status
word) being ready to be reaped afterwards. -/
def foregroundEnv (child : Int) (status : Nat) (ended : List WaitAnswer) : Env :=
  { quietEnv with fork := child, waitChild := { ret := child, status := status },
                  waitAny := ended ++ [{ ret := 0, status := 0 }] }

/-- The globals after `sleep 100 &` has been launched from the initial state as
the child 4242. -/
def oneTracked : ShellState :=
  { initialState with processArray := initialState.processArray.set 0 4242,
                      processIndex := 1 }

/-- The globals once the identifier `child` has been stored in the first free
slot of the table (lines 367-368). -/
def afterLaunch (s : ShellState) (child : Int) : ShellState :=
  { s with processArray := s.processArray.set s.processIndex child,
           processIndex := s.processIndex + 1 }

/-- The globals after `n` such insertions, of the identifiers `first`,
`first + 1`, ... -/
def afterLaunches (s : ShellState) (first : Int) : Nat → ShellState
  | 0 => s
  | n + 1 => afterLaunches (afterLaunch s first) (first + 1) n

/-- The line `sleep 100 &` read `n` times, the commands being launched as the
children `first`, `first + 1`, ..., none of which has ended yet. -/
def backgroundLaunches (first : Int) : Nat → List (Env × CString)
  | 0 => []
  | n + 1 => (backgroundEnv first, "sleep 100 &\n".toList) :: backgroundLaunches (first + 1) n

/-- What happens to the shell between two prompts: the toggle signal is
delivered, or a line is read and processed with the given answers of the
operating system. -/
inductive Action
  /-- delivery of `SIGTSTP`: `catchSIGTSTP` runs -/
  | signal
  /-- a line handled by `main` -/
  | line (env : Env) (command : CString)

/-- The globals after the actions, from the globals `s`; a line that does not
return to `main` (the process has ended, or undefined behaviour was reached)
ends the run with the globals as they were. -/
def stateAfter : ShellState → List Action → ShellState
  | s, [] => s
  | s, Action.signal :: more => stateAfter (catchSIGTSTP s).2 more
  | s, Action.line env command :: more =>
    match (mainStep s env command).outcome with
    | Outcome.returned s2 => stateAfter s2 more
    | _ => s

/-- The report of the sweep for the children reaped, in the order given: for
each one the wait that returned it, the text `background pid P is done: ` and
the text `status` prints for its status word. -/
def sweepReport : List WaitAnswer → List Event
  | [] => []
  | w :: more =>
    Event.wait (-1) true w
      :: Event.write ("background pid ".toList ++ decimal w.ret ++ " is done: ".toList)
      :: Event.write (getStatus w.status)
      :: sweepReport more

/-- Answers of the operating system when no process can be created: `fork`
returns `-1`. -/
def forkFailsEnv : Env := { quietEnv with fork := -1 }

/-- No occurrence of `"$$"` begins inside `pre`, whatever text follows it. -/
def Closed (pre : CString) : Prop :=
  ∀ r : CString, strstr (pre ++ r) ['$', '$'] = (strstr r ['$', '$']).map (· + pre.length)

/-! ## Lemmas: the decimal text of a number holds no `$` -/

theorem marker_toList : "$$".toList = ['$', '$'] := rfl

theorem ite_ne_char {p : Prop} [Decidable p] {a b x : Char} (ha : a ≠ x) (hb : b ≠ x) :
    (if p then a else b) ≠ x := by
  split <;> assumption

theorem digitChar_ne_dollar (n : Nat) : Nat.digitChar n ≠ '$' := by
  unfold Nat.digitChar
  repeat' refine ite_ne_char (by decide) ?_
  decide

theorem toDigitsCore_no_dollar : ∀ (fuel n : Nat) (ds : List Char),
    '$' ∉ ds → '$' ∉ Nat.toDigitsCore 10 fuel n ds
  | 0, _, ds, h => by simpa [Nat.toDigitsCore] using h
  | fuel + 1, n, ds, h => by
    have hd : '$' ∉ Nat.digitChar (n % 10) :: ds := by
      intro hm
      rcases List.mem_cons.1 hm with h1 | h1
      · exact digitChar_ne_dollar _ h1.symm
      · exact h h1
    unfold Nat.toDigitsCore
    by_cases h0 : n / 10 = 0
    · simpa [h0] using hd
    · simp only [h0, if_false]
      exact toDigitsCore_no_dollar fuel (n / 10) _ hd

theorem decimal_no_dollar (pid : Int) : '$' ∉ decimal pid := by
  cases pid with
  | ofNat n => exact toDigitsCore_no_dollar _ _ _ (by simp)
  | negSucc n =>
    intro hm
    rcases List.mem_cons.1 hm with h1 | h1
    · exact absurd h1 (by decide)
    · exact toDigitsCore_no_dollar _ _ _ (by simp) h1


/-! ## Lemmas: the expansion loop -/

theorem strstr_cons_ne (c : Char) (r : CString) (h : c ≠ '$') :
    strstr (c :: r) ['$', '$'] = (strstr r ['$', '$']).map (· + 1) := by
  have h2 : ¬ '$' = c := fun e => h e.symm
  simp [strstr, List.isPrefixOf, h2]

theorem strstr_dollar_ne (c : Char) (r : CString) (h : c ≠ '$') :
    strstr ('$' :: c :: r) ['$', '$'] = (strstr r ['$', '$']).map (· + 2) := by
  have h2 : ¬ '$' = c := fun e => h e.symm
  have h1 : strstr ('$' :: c :: r) ['$', '$'] = (strstr (c :: r) ['$', '$']).map (· + 1) := by
    rw [strstr]
    simp [List.isPrefixOf, h2]
  rw [h1, strstr_cons_ne c r h]
  generalize strstr r ['$', '$'] = o
  cases o <;> simp

theorem strstr_marker (r : CString) : strstr ('$' :: '$' :: r) ['$', '$'] = some 0 := by
  simp [strstr, List.isPrefixOf]

theorem closed_nil : Closed [] := by
  intro r
  simp only [List.nil_append, List.length_nil]
  generalize strstr r ['$', '$'] = o
  cases o <;> simp

theorem closed_snoc {pre : CString} (hp : Closed pre) (c : Char) (h : c ≠ '$') :
    Closed (pre ++ [c]) := by
  intro r
  have := hp (c :: r)
  rw [List.append_assoc, List.singleton_append, this, strstr_cons_ne c r h]
  generalize strstr r ['$', '$'] = o
  cases o
  · simp
  · simp only [Option.map_some', List.length_append, List.length_singleton, Option.some.injEq]
    omega

theorem closed_snoc2 {pre : CString} (hp : Closed pre) (c : Char) (h : c ≠ '$') :
    Closed (pre ++ ['$', c]) := by
  intro r
  have := hp ('$' :: c :: r)
  rw [List.append_assoc]
  simp only [List.cons_append, List.nil_append]
  rw [this, strstr_dollar_ne c r h]
  generalize strstr r ['$', '$'] = o
  cases o
  · simp
  · simp only [Option.map_some', List.length_append, List.length_cons, List.length_nil,
      Option.some.injEq]
    omega

theorem closed_append {pre : CString} (hp : Closed pre) :
    ∀ d : CString, '$' ∉ d → Closed (pre ++ d) := by
  intro d
  induction d generalizing pre with
  | nil => intro _; simpa using hp
  | cons c d ih =>
    intro h
    have hc : c ≠ '$' := fun e => h (by simp [e])
    have hd : '$' ∉ d := fun e => h (List.mem_cons_of_mem _ e)
    have := ih (closed_snoc hp c hc) hd
    simpa using this

theorem replaceMarkers_cons_ne (d : CString) (c : Char) (r : CString) (h : c ≠ '$') :
    replaceMarkers d (c :: r) = c :: replaceMarkers d r := by
  rw [replaceMarkers]
  intro _ h2 _
  exact h h2

theorem replaceMarkers_dollar_ne (d : CString) (c : Char) (r : CString) (h : c ≠ '$') :
    replaceMarkers d ('$' :: c :: r) = '$' :: c :: replaceMarkers d r := by
  rw [replaceMarkers, replaceMarkers_cons_ne d c r h]
  intro _ _ h3
  exact h (List.cons.inj h3).1

theorem replaceMarkers_marker (d : CString) (r : CString) :
    replaceMarkers d ('$' :: '$' :: r) = d ++ replaceMarkers d r := by
  rw [replaceMarkers]

theorem replaceMarkers_length (d : CString) (hd : 2 ≤ d.length) :
    ∀ (n : Nat) (line : CString), line.length ≤ n →
      line.length ≤ (replaceMarkers d line).length := by
  intro n
  induction n using Nat.strong_induction_on with
  | _ n ih =>
    intro line hn
    match line, hn with
    | [], _ => simp
    | c :: rest, hn =>
      simp only [List.length_cons] at hn
      by_cases hc : c = '$'
      · subst hc
        match rest, hn with
        | [], _ => simp [replaceMarkers]
        | c2 :: rest2, hn =>
          simp only [List.length_cons] at hn
          by_cases hc2 : c2 = '$'
          · subst hc2
            have hrec := ih rest2.length (by omega) rest2 le_rfl
            rw [replaceMarkers_marker]
            simp only [List.length_cons, List.length_append]
            omega
          · have hrec := ih rest2.length (by omega) rest2 le_rfl
            rw [replaceMarkers_dollar_ne _ _ _ hc2]
            simp only [List.length_cons]
            omega
      · have hrec := ih rest.length (by omega) rest le_rfl
        rw [replaceMarkers_cons_ne _ _ _ hc]
        simp only [List.length_cons]
        omega

theorem expand_marker (pid : Int) (pre rest : CString)
    (h0 : strstr (pre ++ '$' :: '$' :: rest) ['$', '$'] = some pre.length) :
    expand (pre ++ '$' :: '$' :: rest) ['$', '$'] pid =
      if (pre ++ decimal pid ++ rest).length + 1 ≤ MAX_LENGTH
      then Except.ok (pre ++ decimal pid ++ rest)
      else Except.error Fault.expandedTokenOverrun := by
  have e2 : List.drop (pre.length + 2) (pre ++ '$' :: '$' :: rest) = rest := by
    rw [← List.drop_drop, List.drop_left]
    rfl
  simp only [expand, h0, List.length_cons, List.length_nil, List.take_left, e2,
    List.append_assoc]

/-- The expansion loop on a line of which the part `pre` is already expanded.  It
finishes within `fuel` tests when `fuel` exceeds the length of the rest of the
line.  When it ends without a fault its result is the line that one pass of
`replaceMarkers` gives, and that result was copied into both buffers within
their sizes unless the line held no `"$$"`; a fault is an overrun of one of
the two buffers; and the loop does end without a fault when the line and the
result both fit the block of `token` (`room` bytes) and `expandedToken`. -/
theorem expandLoop_closed (pid : Int) (room : Nat) :
    ∀ (n : Nat) (line pre : CString) (fuel : Nat),
    line.length ≤ n → line.length < fuel → Closed pre →
    ∃ r, expandLoop fuel room pid (pre ++ line) = some r ∧
      (∀ e, r = Except.ok e → e = pre ++ replaceMarkers (decimal pid) line ∧
        (strstr (pre ++ line) ['$', '$'] = none ∨
          (e.length + 1 ≤ room ∧ e.length + 1 ≤ MAX_LENGTH))) ∧
      (∀ f, r = Except.error f →
        f = Fault.tokenOverrun ∨ f = Fault.expandedTokenOverrun) ∧
      ((pre ++ line).length + 1 ≤ room → (pre ++ line).length + 1 ≤ MAX_LENGTH →
       (pre ++ replaceMarkers (decimal pid) line).length + 1 ≤ room →
       (pre ++ replaceMarkers (decimal pid) line).length + 1 ≤ MAX_LENGTH →
        r = Except.ok (pre ++ replaceMarkers (decimal pid) line)) := by
  intro n
  induction n using Nat.strong_induction_on with
  | _ n ih =>
    intro line pre fuel hn hf hp
    obtain ⟨f, rfl⟩ : ∃ f, fuel = f + 1 := ⟨fuel - 1, by omega⟩
    match line, hn, hf with
    | [], _, _ =>
      have h0 := hp []
      simp only [List.append_nil] at h0 ⊢
      have h1 : strstr pre ['$', '$'] = none := by simpa [strstr] using h0
      refine ⟨Except.ok pre, ?_, ?_, ?_, ?_⟩
      · simp [expandLoop, marker_toList, h1]
      · intro e he
        simp only [replaceMarkers, List.append_nil]
        exact ⟨(Except.ok.inj he).symm, Or.inl h1⟩
      · intro f he
        cases he
      · intro _ _ _ _
        simp [replaceMarkers]
    | c :: rest, hn, hf =>
      by_cases hc : c = '$'
      · subst hc
        match rest, hn, hf with
        | [], _, _ =>
          have h0 := hp ['$']
          have h1 : strstr (pre ++ ['$']) ['$', '$'] = none := by
            simpa [strstr, List.isPrefixOf] using h0
          refine ⟨Except.ok (pre ++ ['$']), ?_, ?_, ?_, ?_⟩
          · simp [expandLoop, marker_toList, h1]
          · intro e he
            simp only [replaceMarkers]
            exact ⟨(Except.ok.inj he).symm, Or.inl h1⟩
          · intro f he
            cases he
          · intro _ _ _ _
            simp [replaceMarkers]
        | c2 :: rest2, hn, hf =>
          by_cases hc2 : c2 = '$'
          · subst hc2
            have h0 := hp ('$' :: '$' :: rest2)
            rw [strstr_marker] at h0
            simp only [Option.map_some', Nat.zero_add] at h0
            simp only [List.length_cons] at hn hf
            obtain ⟨f2, rfl⟩ : ∃ f2, f = f2 + 1 := ⟨f - 1, by omega⟩
            obtain ⟨r, hr1, hr2, hr3, hr4⟩ := ih rest2.length (by omega) rest2
              (pre ++ decimal pid) (f2 + 1) le_rfl (by omega)
              (closed_append hp _ (decimal_no_dollar pid))
            have hexp := expand_marker pid pre rest2 h0
            rw [replaceMarkers_marker]
            have hassoc : pre ++ (decimal pid ++ replaceMarkers (decimal pid) rest2)
                = pre ++ decimal pid ++ replaceMarkers (decimal pid) rest2 :=
              (List.append_assoc _ _ _).symm
            rw [hassoc]
            have hmid : (pre ++ '$' :: '$' :: rest2).length + 1 ≤ room →
                (pre ++ '$' :: '$' :: rest2).length + 1 ≤ MAX_LENGTH →
                (pre ++ decimal pid ++ replaceMarkers (decimal pid) rest2).length + 1 ≤ room →
                (pre ++ decimal pid ++ replaceMarkers (decimal pid) rest2).length + 1
                  ≤ MAX_LENGTH →
                (pre ++ decimal pid ++ rest2).length + 1 ≤ room ∧
                (pre ++ decimal pid ++ rest2).length + 1 ≤ MAX_LENGTH := by
              intro h1 h2 h3 h4
              simp only [List.length_append, List.length_cons] at h1 h2 h3 h4 ⊢
              by_cases hd : 2 ≤ (decimal pid).length
              · have := replaceMarkers_length (decimal pid) hd rest2.length rest2 le_rfl
                omega
              · omega
            by_cases hE : (pre ++ decimal pid ++ rest2).length + 1 ≤ MAX_LENGTH
            · rw [if_pos hE] at hexp
              by_cases hR : (pre ++ decimal pid ++ rest2).length + 1 ≤ room
              · refine ⟨r, ?_, ?_, hr3, ?_⟩
                · simp only [expandLoop, marker_toList, h0, hexp, hR, if_true]
                  exact hr1
                · intro e he
                  obtain ⟨he1, he2⟩ := hr2 e he
                  refine ⟨he1, Or.inr ?_⟩
                  rcases he2 with hnone | hfit
                  · have hstop : expandLoop (f2 + 1) room pid (pre ++ decimal pid ++ rest2)
                        = some (Except.ok (pre ++ decimal pid ++ rest2)) := by
                      simp only [expandLoop, marker_toList, hnone]
                    rw [hstop, he] at hr1
                    have := Except.ok.inj (Option.some.inj hr1)
                    rw [← this]
                    exact ⟨hR, hE⟩
                  · exact hfit
                · intro h1 h2 h3 h4
                  exact hr4 hR hE h3 h4
              · refine ⟨Except.error Fault.tokenOverrun, ?_, ?_, ?_, ?_⟩
                · simp only [expandLoop, marker_toList, h0, hexp, hR, if_false]
                · intro e he
                  cases he
                · intro f he
                  exact Or.inl (Except.error.inj he).symm
                · intro h1 h2 h3 h4
                  exact absurd (hmid h1 h2 h3 h4).1 hR
            · rw [if_neg hE] at hexp
              refine ⟨Except.error Fault.expandedTokenOverrun, ?_, ?_, ?_, ?_⟩
              · simp only [expandLoop, marker_toList, h0, hexp]
              · intro e he
                cases he
              · intro f he
                exact Or.inr (Except.error.inj he).symm
              · intro h1 h2 h3 h4
                exact absurd (hmid h1 h2 h3 h4).2 hE
          · simp only [List.length_cons] at hn hf
            have hrec := ih rest2.length (by omega) rest2 (pre ++ ['$', c2]) (f + 1) le_rfl
              (by omega) (closed_snoc2 hp c2 hc2)
            rw [replaceMarkers_dollar_ne _ _ _ hc2]
            simpa using hrec
      · simp only [List.length_cons] at hn hf
        have hrec := ih rest.length (by omega) rest (pre ++ [c]) (f + 1) le_rfl (by omega)
          (closed_snoc hp c hc)
        rw [replaceMarkers_cons_ne _ _ _ hc]
        simpa using hrec

/-- The expansion loop always finishes within the bound `lexLine` gives it: with
the line of one pass of `replaceMarkers`, which has then overrun no buffer, or
with an overrun of `token` or `expandedToken`. -/
theorem expandLoop_finishes (pid : Int) (room : Nat) (token : CString) :
    ∃ r, expandLoop (token.length + 1) room pid token = some r ∧
      (∀ e, r = Except.ok e → e = replaceMarkers (decimal pid) token ∧
        (strstr token ['$', '$'] = none ∨
          (e.length + 1 ≤ room ∧ e.length + 1 ≤ MAX_LENGTH))) ∧
      (∀ f, r = Except.error f →
        f = Fault.tokenOverrun ∨ f = Fault.expandedTokenOverrun) := by
  obtain ⟨r, h1, h2, h3, _⟩ := expandLoop_closed pid room token.length token []
    (token.length + 1) le_rfl (by omega) closed_nil
  exact ⟨r, by simpa using h1, by simpa using h2, h3⟩

/-- The expansion loop on a line that, like its expansion, fits both buffers. -/
theorem expandLoop_fits (pid : Int) (room : Nat) (token : CString)
    (h1 : token.length + 1 ≤ room) (h2 : token.length + 1 ≤ MAX_LENGTH)
    (h3 : (replaceMarkers (decimal pid) token).length + 1 ≤ room)
    (h4 : (replaceMarkers (decimal pid) token).length + 1 ≤ MAX_LENGTH) :
    expandLoop (token.length + 1) room pid token
      = some (Except.ok (replaceMarkers (decimal pid) token)) := by
  obtain ⟨r, hr1, _, _, hr4⟩ := expandLoop_closed pid room token.length token []
    (token.length + 1) le_rfl (by omega) closed_nil
  simp only [List.nil_append] at hr1 hr4
  rw [hr1, hr4 h1 h2 h3 h4]

/-- The expansion loop on a line without `"$$"`: the line itself, whatever the
sizes of the buffers. -/
theorem expandLoop_plain (pid : Int) (room fuel : Nat) (token : CString)
    (h : strstr token "$$".toList = none) :
    expandLoop (fuel + 1) room pid token = some (Except.ok token) := by
  simp only [expandLoop, h]

theorem strstr_eq_none_iff (hay needle : CString) :
    strstr hay needle = none ↔ ¬ needle <:+: hay := by
  induction hay with
  | nil =>
    by_cases h : needle = []
    · simp [strstr, h]
    · simp [strstr, h]
  | cons c r ih =>
    rw [strstr, List.infix_cons_iff]
    by_cases hp : needle.isPrefixOf (c :: r) = true
    · have := List.isPrefixOf_iff_prefix.1 hp
      simp [hp, this]
    · have hn : ¬ needle <+: c :: r := fun h => hp (List.isPrefixOf_iff_prefix.2 h)
      simp only [hp, Bool.false_eq_true, if_false, Option.map_eq_none', ih, hn, false_or]

theorem replaceMarkers_of_no_marker (pid : Int) (line : CString)
    (h : ¬ "$$".toList <:+: line) : replaceMarkers (decimal pid) line = line := by
  obtain ⟨r, h1, h2, _⟩ := expandLoop_finishes pid 0 line
  have h3 := expandLoop_plain pid 0 line.length line ((strstr_eq_none_iff _ _).2 h)
  rw [h3] at h1
  exact (h2 line (Option.some.inj h1).symm).1.symm

/-! ## Lemmas: tokens -/

theorem take_drop_takeWhile (p : Char → Bool) (r : CString) :
    r.take (r.takeWhile p).length = r.takeWhile p ∧
    r.drop (r.takeWhile p).length = r.dropWhile p := by
  have h := List.takeWhile_append_dropWhile p r
  have e1 := @List.take_left _ (r.takeWhile p) (r.dropWhile p)
  have e2 := @List.drop_left _ (r.takeWhile p) (r.dropWhile p)
  rw [h] at e1 e2
  exact ⟨e1, e2⟩

theorem strtok_r_nil (delim : Char) : strtok_r [] delim = none := by
  simp [strtok_r, strspn]

theorem strtok_r_cons_delim (delim : Char) (r : CString) :
    strtok_r (delim :: r) delim = strtok_r r delim := by
  simp [strtok_r, strspn, List.takeWhile]

theorem strtok_r_cons_ne (delim c : Char) (r : CString) (h : c ≠ delim) :
    strtok_r (c :: r) delim
      = some (c :: r.takeWhile (· != delim), (r.dropWhile (· != delim)).drop 1) := by
  have hf : (c == delim) = false := by simp [h]
  have ht : (c != delim) = true := by simp [h]
  have h1 : strspn (c :: r) delim = 0 := by simp [strspn, List.takeWhile, hf]
  have h2 : strcspn (c :: r) delim = (r.takeWhile (· != delim)).length + 1 := by
    simp [strcspn, List.takeWhile, ht]
  obtain ⟨e1, e2⟩ := take_drop_takeWhile (· != delim) r
  simp only [strtok_r, h1, List.drop_zero, h2, List.isEmpty_cons, Bool.false_eq_true,
    if_false, List.take_succ_cons, List.drop_succ_cons, e1]
  rw [← e2, List.drop_drop]

theorem strtok_r_length (delim : Char) (s tok save : CString)
    (h : strtok_r s delim = some (tok, save)) : save.length < s.length := by
  induction s with
  | nil => simp [strtok_r_nil] at h
  | cons c r ih =>
    by_cases hc : c = delim
    · subst hc
      rw [strtok_r_cons_delim] at h
      have := ih h
      simp only [List.length_cons]
      omega
    · rw [strtok_r_cons_ne delim c r hc] at h
      simp only [Option.some.injEq, Prod.mk.injEq] at h
      rw [← h.2]
      have h3 : (r.dropWhile (· != delim)).length ≤ r.length :=
        (List.dropWhile_sublist _).length_le
      simp only [List.length_drop, List.length_cons]
      omega

theorem splitOn_space (r : CString) :
    r.splitOn ' ' = r.takeWhile (· != ' ') ::
      (match r.dropWhile (· != ' ') with
       | [] => []
       | _ :: rest => rest.splitOn ' ') := by
  induction r with
  | nil => simp [List.splitOn, List.splitOnP_nil]
  | cons x r ih =>
    by_cases hx : x = ' '
    · subst hx
      simp [List.splitOn, List.splitOnP_cons, List.takeWhile, List.dropWhile]
    · have hx2 : (x != ' ') = true := by simp [hx]
      have hx3 : (x == ' ') = false := by simp [hx]
      rw [List.splitOn, List.splitOnP_cons] at *
      simp only [hx3, Bool.false_eq_true, if_false, List.takeWhile, hx2, List.dropWhile]
      rw [ih]
      rfl

theorem splitSpaces_nil : splitSpaces [] = [] := by
  simp [splitSpaces, List.splitOn, List.splitOnP_nil]

theorem splitSpaces_cons_space (r : CString) : splitSpaces (' ' :: r) = splitSpaces r := by
  simp [splitSpaces, List.splitOn, List.splitOnP_cons]

theorem splitSpaces_cons_ne (c : Char) (r : CString) (h : c ≠ ' ') :
    splitSpaces (c :: r)
      = (c :: r.takeWhile (· != ' ')) :: splitSpaces ((r.dropWhile (· != ' ')).drop 1) := by
  have hc : (c != ' ') = true := by simp [h]
  rw [splitSpaces, splitOn_space]
  simp only [List.takeWhile, hc, List.dropWhile]
  rw [List.filter_cons_of_pos (by simp)]
  congr 1
  cases hd : r.dropWhile (· != ' ') with
  | nil => simp [splitSpaces_nil]
  | cons y rest => simp [splitSpaces]

theorem restTokens_eq_splitSpaces : ∀ (n : Nat) (s : CString) (fuel : Nat),
    s.length ≤ n → s.length < fuel → restTokens fuel s = splitSpaces s := by
  intro n
  induction n using Nat.strong_induction_on with
  | _ n ih =>
    intro s fuel hn hf
    obtain ⟨f, rfl⟩ : ∃ f, fuel = f + 1 := ⟨fuel - 1, by omega⟩
    match s, hn, hf with
    | [], _, _ => simp [restTokens, strtok_r_nil, splitSpaces_nil]
    | c :: r, hn, hf =>
      simp only [List.length_cons] at hn hf
      by_cases hc : c = ' '
      · subst hc
        have hrec := ih r.length (by omega) r (f + 1) le_rfl (by omega)
        rw [splitSpaces_cons_space, ← hrec]
        simp only [restTokens, strtok_r_cons_delim]
      · have hlen : ((r.dropWhile (· != ' ')).drop 1).length ≤ r.length := by
          have h3 : (r.dropWhile (· != ' ')).length ≤ r.length :=
            (List.dropWhile_sublist _).length_le
          simp only [List.length_drop]
          omega
        have hrec := ih ((r.dropWhile (· != ' ')).drop 1).length (by omega) _ f le_rfl
          (by omega)
        rw [splitSpaces_cons_ne c r hc, ← hrec]
        simp only [restTokens, strtok_r_cons_ne ' ' c r hc]

/-- The tokens `strtok_r` delivers are the pieces of the line between runs of
spaces; the bound on the number of calls is never reached. -/
theorem tokens_eq_splitSpaces (s : CString) : tokens s = splitSpaces s :=
  restTokens_eq_splitSpaces s.length s (s.length + 1) le_rfl (by omega)

theorem strtok_r_space_spec (e : CString) :
    (strtok_r e ' ' = none ∧ splitSpaces e = []) ∨
    (∃ t save, strtok_r e ' ' = some (t, save) ∧ splitSpaces e = t :: splitSpaces save) := by
  induction e with
  | nil => exact Or.inl ⟨strtok_r_nil _, splitSpaces_nil⟩
  | cons c r ih =>
    by_cases hc : c = ' '
    · subst hc
      rw [strtok_r_cons_delim, splitSpaces_cons_space]
      exact ih
    · exact Or.inr ⟨_, _, strtok_r_cons_ne ' ' c r hc, splitSpaces_cons_ne c r hc⟩

theorem takeWhile_no_newline (r rest : CString) (h : '\n' ∉ r) :
    (r ++ rest).takeWhile (· != '\n') = r ++ rest.takeWhile (· != '\n') := by
  induction r with
  | nil => simp
  | cons x r ih =>
    have hx : (x != '\n') = true := by
      have : x ≠ '\n' := fun e => h (by simp [e])
      simp [this]
    have hr : '\n' ∉ r := fun e => h (List.mem_cons_of_mem _ e)
    rw [List.cons_append, List.takeWhile_cons, List.cons_append]
    simp only [hx, if_true, ih hr]

theorem strtok_r_line (c : Char) (r rest : CString) (hc : c ≠ '\n') (hr : '\n' ∉ r) :
    ∃ save, strtok_r (c :: r ++ '\n' :: rest) '\n' = some (c :: r, save) ∧
      strspn (c :: r ++ '\n' :: rest) '\n' = 0 := by
  have hf : (c == '\n') = false := by simp [hc]
  refine ⟨((r ++ '\n' :: rest).dropWhile (· != '\n')).drop 1, ?_, ?_⟩
  · rw [List.cons_append, strtok_r_cons_ne '\n' c _ hc, takeWhile_no_newline r _ hr]
    simp [List.takeWhile]
  · simp [strspn, List.takeWhile, hf]

theorem strtok_r_line_end (c : Char) (r : CString) (hc : c ≠ '\n') (hr : '\n' ∉ r) :
    ∃ save, strtok_r (c :: r) '\n' = some (c :: r, save) ∧ strspn (c :: r) '\n' = 0 := by
  have hf : (c == '\n') = false := by simp [hc]
  refine ⟨(r.dropWhile (· != '\n')).drop 1, ?_, ?_⟩
  · rw [strtok_r_cons_ne '\n' c _ hc]
    have := takeWhile_no_newline r [] hr
    simp only [List.append_nil, List.takeWhile_nil] at this
    rw [this]
  · simp [strspn, List.takeWhile, hf]

theorem strtok_r_token_length (delim : Char) (s tok save : CString)
    (h : strtok_r s delim = some (tok, save)) : tok.length + strspn s delim ≤ s.length := by
  unfold strtok_r at h
  simp only at h
  split at h
  · exact absurd h (by simp)
  · simp only [Option.some.injEq, Prod.mk.injEq] at h
    rw [← h.1]
    simp only [List.length_take, List.length_drop]
    have : strspn s delim ≤ s.length := by
      unfold strspn
      exact (List.takeWhile_sublist _).length_le
    omega

/-- What `lexLine` does with a first line `token` (newline already removed)
that is not a comment, given the result of the expansion loop and the tokens
of that result. -/
theorem lexLine_of_expanded (pid : Int) (command token save expanded : CString)
    (first : CString) (more : List CString)
    (hstr : strtok_r command '\n' = some (token, save))
    (hhash : token.head? ≠ some '#')
    (hexp : expandLoop (token.length + 1) (command.length + 1 - strspn command '\n') pid token
      = some (Except.ok expanded))
    (htok : splitSpaces expanded = first :: more)
    (hfirst : first ≠ "#".toList) :
    lexLine pid command = Lexed.tokens (first :: more) := by
  have hne : token ≠ [] := by
    intro e
    rw [e] at hexp
    simp only [List.length_nil, Nat.zero_add, expandLoop, marker_toList, strstr,
      Option.some.injEq, Except.ok.injEq] at hexp
    simp at hexp
    rw [hexp] at htok
    simp [splitSpaces_nil] at htok
  have hne2 : token ≠ "#".toList := by
    intro e
    rw [e] at hhash
    exact hhash rfl
  rcases strtok_r_space_spec expanded with ⟨_, h0⟩ | ⟨t, sv, h1, h2⟩
  · rw [h0] at htok
    exact absurd htok (by simp)
  · rw [h2] at htok
    obtain ⟨ht, hsv⟩ := List.cons.inj htok
    subst ht
    have hrest : restTokens (sv.length + 1) sv = more := by
      rw [← hsv]
      exact restTokens_eq_splitSpaces sv.length sv _ le_rfl (by omega)
    simp only [lexLine, hstr, hne, hne2, hhash, or_self, if_false, hexp, h1, hfirst, hrest]

/-- The same for a first line without `"$$"`: nothing is expanded. -/
theorem lexLine_of_token (pid : Int) (command token save : CString)
    (first : CString) (more : List CString)
    (hstr : strtok_r command '\n' = some (token, save))
    (hhash : token.head? ≠ some '#')
    (hmarker : ¬ "$$".toList <:+: token)
    (htok : splitSpaces token = first :: more)
    (hfirst : first ≠ "#".toList) :
    lexLine pid command = Lexed.tokens (first :: more) :=
  lexLine_of_expanded pid command token save token first more hstr hhash
    (expandLoop_plain pid _ _ token ((strstr_eq_none_iff _ _).2 hmarker)) htok hfirst

/-- The same for a line given with or without its final newline. -/
theorem lexLine_of_tokens (pid : Int) (line : CString) (first : CString)
    (more : List CString) (hnl : '\n' ∉ line) (hhash : line.head? ≠ some '#')
    (hmarker : ¬ "$$".toList <:+: line)
    (htok : splitSpaces line = first :: more)
    (hfirst : first ≠ "#".toList) :
    lexLine pid (line ++ ['\n']) = Lexed.tokens (first :: more) ∧
    lexLine pid line = Lexed.tokens (first :: more) := by
  match line, hnl, hhash, hmarker, htok with
  | [], _, _, _, htok => simp [splitSpaces_nil] at htok
  | c :: r, hnl, hhash, hmarker, htok =>
    have hc : c ≠ '\n' := fun e => hnl (by simp [e])
    have hr : '\n' ∉ r := fun e => hnl (List.mem_cons_of_mem _ e)
    obtain ⟨s1, h1, _⟩ := strtok_r_line c r [] hc hr
    obtain ⟨s2, h2, _⟩ := strtok_r_line_end c r hc hr
    exact ⟨lexLine_of_token pid _ _ _ first more h1 hhash hmarker htok hfirst,
      lexLine_of_token pid _ _ _ first more h2 hhash hmarker htok hfirst⟩

/-- A line with `"$$"`, read with its final newline by `fgets` (so of fewer than
`MAX_LENGTH - 1` characters before the newline), whose expansion is at most
one character longer than the line: the expansion fits the block of `token`
(the byte of the newline is the one to spare) and `expandedToken`, and the
tokens are those of the line one pass of `replaceMarkers` gives. -/
theorem lexLine_of_fitting (pid : Int) (line : CString) (first : CString)
    (more : List CString) (hnl : '\n' ∉ line) (hhash : line.head? ≠ some '#')
    (hlen : line.length + 1 < MAX_LENGTH)
    (hfit : (replaceMarkers (decimal pid) line).length ≤ line.length + 1)
    (htok : splitSpaces (replaceMarkers (decimal pid) line) = first :: more)
    (hfirst : first ≠ "#".toList) :
    lexLine pid (line ++ ['\n']) = Lexed.tokens (first :: more) := by
  match line, hnl, hhash, hlen, hfit, htok with
  | [], _, _, _, _, htok => simp [replaceMarkers, splitSpaces_nil] at htok
  | c :: r, hnl, hhash, hlen, hfit, htok =>
    have hc : c ≠ '\n' := fun e => hnl (by simp [e])
    have hr : '\n' ∉ r := fun e => hnl (List.mem_cons_of_mem _ e)
    obtain ⟨s1, h1, hspn⟩ := strtok_r_line c r [] hc hr
    refine lexLine_of_expanded pid _ _ _ _ first more h1 hhash ?_ htok hfirst
    rw [hspn]
    refine expandLoop_fits pid _ _ ?_ ?_ ?_ ?_
    · simp only [List.length_append, List.length_cons, List.length_nil]
      omega
    · omega
    · simp only [List.length_append, List.length_cons, List.length_nil] at hfit ⊢
      omega
    · simp only [List.length_cons] at hfit hlen
      omega

theorem restTokens_length : ∀ (fuel : Nat) (s t : CString),
    t ∈ restTokens fuel s → t.length ≤ s.length
  | 0, _, _, h => by simp [restTokens] at h
  | fuel + 1, s, t, h => by
    unfold restTokens at h
    split at h
    · simp at h
    · rename_i token savePTR hs
      rcases List.mem_cons.1 h with e | e
      · have := strtok_r_token_length ' ' s token savePTR hs
        rw [e]
        omega
      · have h1 := restTokens_length fuel savePTR t e
        have h2 := strtok_r_length ' ' s token savePTR hs
        omega

/-- No token is longer than the line it comes from: the `sprintf` of line 208
writes its token, and the terminating NUL, within the `strlen(command) + 1`
bytes of the block of `outFile`. -/
theorem lexLine_token_length (pid : Int) (command : CString) (toks : List CString)
    (h : lexLine pid command = Lexed.tokens toks) :
    ∀ t ∈ toks, t.length + 1 ≤ command.length + 1 := by
  unfold lexLine at h
  split at h
  · simp at h
  · rename_i token save hstr
    have hlen := strtok_r_token_length '\n' command token save hstr
    split at h
    · simp at h
    · obtain ⟨r, hr1, hr2, _⟩ := expandLoop_finishes pid
        (command.length + 1 - strspn command '\n') token
      rw [hr1] at h
      cases r with
      | error f => simp at h
      | ok expanded =>
        obtain ⟨he1, he2⟩ := hr2 expanded rfl
        have hexp : expanded.length ≤ command.length := by
          rcases he2 with hnone | hfit
          · have := replaceMarkers_of_no_marker pid token ((strstr_eq_none_iff _ _).1 hnone)
            rw [he1, this]
            omega
          · omega
        simp only at h
        split at h
        · simp at h
        · rename_i first savePTR hfirst
          split at h
          · simp at h
          · simp only [Lexed.tokens.injEq] at h
            intro t ht
            rw [← h] at ht
            rcases List.mem_cons.1 ht with e | e
            · have := strtok_r_token_length ' ' expanded first savePTR hfirst
              rw [e]
              omega
            · have h1 := restTokens_length _ savePTR t e
              have h2 := strtok_r_length ' ' expanded first savePTR hfirst
              omega

/-- A line, read with its final newline, whose expansion is more than one
character longer than the line: `lexLine` ends in an overrun of `token` or of
`expandedToken`. -/
theorem lexLine_of_overrun (pid : Int) (line : CString)
    (hnl : '\n' ∉ line) (hhash : line.head? ≠ some '#')
    (hover : line.length + 1 < (replaceMarkers (decimal pid) line).length) :
    lexLine pid (line ++ ['\n']) = Lexed.fault Fault.tokenOverrun ∨
    lexLine pid (line ++ ['\n']) = Lexed.fault Fault.expandedTokenOverrun := by
  match line, hnl, hhash, hover with
  | [], _, _, hover => simp [replaceMarkers] at hover
  | c :: r, hnl, hhash, hover =>
    have hc : c ≠ '\n' := fun e => hnl (by simp [e])
    have hr : '\n' ∉ r := fun e => hnl (List.mem_cons_of_mem _ e)
    obtain ⟨s1, h1, hspn⟩ := strtok_r_line c r [] hc hr
    have hne2 : c :: r ≠ "#".toList := by
      intro e
      rw [e] at hhash
      exact hhash rfl
    obtain ⟨res, hr1, hr2, hr3⟩ := expandLoop_finishes pid
      ((c :: r ++ ['\n']).length + 1 - strspn (c :: r ++ ['\n']) '\n') (c :: r)
    cases res with
    | error f =>
      have hlex : lexLine pid (c :: r ++ ['\n']) = Lexed.fault f := by
        simp only [lexLine, h1, hne2, hhash, or_self, if_false, hr1]
        simp
      rw [hlex]
      rcases hr3 f rfl with e | e
      · exact Or.inl (by rw [e])
      · exact Or.inr (by rw [e])
    | ok expanded =>
      exfalso
      obtain ⟨he1, he2⟩ := hr2 expanded rfl
      rcases he2 with hnone | hfit
      · have := replaceMarkers_of_no_marker pid (c :: r) ((strstr_eq_none_iff _ _).1 hnone)
        rw [this] at hover
        omega
      · rw [hspn, he1] at hfit
        simp only [List.length_append, List.length_cons, List.length_nil] at hfit hover
        omega

/-- Lines whose expansion overruns the block of `token` are turned into no
tokens, whatever else they hold: here twenty `$` after `echo` and a blank,
with and without a redirection or a `"&"`, read with the identifier 12345 (the
first `strcpy` already writes two bytes more than the block holds). -/
theorem lexLine_markers_overrun :
    lexLine 12345 "echo $$$$$$$$$$$$$$$$$$$$\n".toList = Lexed.fault Fault.tokenOverrun ∧
    lexLine 12345 "echo $$$$$$$$$$$$$$$$$$$$ > out\n".toList
      = Lexed.fault Fault.tokenOverrun ∧
    lexLine 12345 "echo $$$$$$$$$$$$$$$$$$$$ &\n".toList = Lexed.fault Fault.tokenOverrun ∧
    lexLine 12345 "echo & $$$$$$$$$$$$$$$$$$$$\n".toList
      = Lexed.fault Fault.tokenOverrun := by
  decide

/-! ## C1: expansion of `$$` -/

/-- C1, the code at the failing input, the example of the claim.  One pass over
`echo $$pid` with the identifier 1234 gives `echo 1234pid`, of 12 characters;
the block of `token` has the 12 bytes of the line read, `echo $$pid` and the
newline, and its terminating NUL.  The `strcpy` of line 188 writes the 12
characters and the NUL, 13 bytes, into it: `processCommand` reaches a write
past the end of the block, and no token is produced.  With the identifier 123
the expansion takes the 12 bytes and the tokens are `echo` and `123pid`.
(For the lines whose expansion fits see `lexLine_of_fitting`, for those whose
expansion does not `lexLine_of_overrun`.) -/
theorem expansion_overruns_token :
    replaceMarkers (decimal 1234) "echo $$pid".toList = "echo 1234pid".toList ∧
    ("echo 1234pid".toList).length + 1 = 13 ∧
    ("echo $$pid\n".toList).length + 1 = 12 ∧
    lexLine 1234 "echo $$pid\n".toList = Lexed.fault Fault.tokenOverrun ∧
    (∀ (s : ShellState) (env : Env),
      processCommand s { env with pid := 1234 } "echo $$pid\n".toList
        = { trace := [], outcome := Outcome.fault Fault.tokenOverrun } ∧
      mainStep s { env with pid := 1234 } "echo $$pid\n".toList
        = { trace := [], outcome := Outcome.fault Fault.tokenOverrun }) ∧
    parseLine 0 123 "echo $$pid\n".toList
      = Parse.command { args := ["echo".toList, "123pid".toList], inFile := [],
                        outFile := [], backgroundFlag := 0 } := by
  have hlex : lexLine 1234 "echo $$pid\n".toList = Lexed.fault Fault.tokenOverrun := by
    decide
  refine ⟨by decide, by decide, by decide, hlex, ?_, by decide⟩
  intro s env
  have hp : processCommand s { env with pid := 1234 } "echo $$pid\n".toList
      = { trace := [], outcome := Outcome.fault Fault.tokenOverrun } := by
    simp only [processCommand, parseLine, hlex]
  refine ⟨hp, ?_⟩
  rw [mainStep, if_neg (by decide), hp]

/-! ## Lemmas: the loop over the tokens -/

theorem lt_ne_gt : "<".toList ≠ ">".toList := by decide

theorem scanTokens_word (w : CString) (rest : List CString) (c : Command)
    (h1 : w ≠ "<".toList) (h2 : w ≠ ">".toList) :
    scanTokens (w :: rest) c =
      if c.args.length < MAX_ARGS then scanTokens rest { c with args := c.args ++ [w] }
      else Except.error Fault.argsIndex := by
  have h3 : w ≠ ['<'] := h1
  have h4 : w ≠ ['>'] := h2
  cases rest <;> simp [scanTokens, h3, h4]

theorem scanTokens_input (file : CString) (rest : List CString) (c : Command) :
    scanTokens ("<".toList :: file :: rest) c = scanTokens rest { c with inFile := file } := by
  rw [scanTokens]
  simp only [lt_ne_gt, if_false, if_true]

theorem scanTokens_output (file : CString) (rest : List CString) (c : Command) :
    scanTokens (">".toList :: file :: rest) c = scanTokens rest { c with outFile := file } := by
  rw [scanTokens]
  simp only [if_true]

/-- The loop over tokens made of ordinary tokens and complete redirections, as
long as `args` is not overrun. -/
theorem scanTokens_render : ∀ (items : List Item) (c : Command),
    (∀ w ∈ words items, w ≠ "<".toList ∧ w ≠ ">".toList) →
    c.args.length + (words items).length ≤ MAX_ARGS →
    scanTokens (renderItems items) c = Except.ok
      { args := c.args ++ words items, inFile := lastInput items c.inFile,
        outFile := lastOutput items c.outFile, backgroundFlag := c.backgroundFlag }
  | [], c, _, _ => by
    simp [renderItems, words, lastInput, lastOutput, scanTokens]
  | Item.word w :: more, c, hw, hcap => by
    have hw1 := hw w (by simp [words])
    have hmore : ∀ x ∈ words more, x ≠ "<".toList ∧ x ≠ ">".toList :=
      fun x hx => hw x (by simp [words, hx])
    simp only [words, List.length_cons] at hcap
    have hlt : c.args.length < MAX_ARGS := by omega
    rw [renderItems, scanTokens_word w _ c hw1.1 hw1.2, if_pos hlt,
      scanTokens_render more _ hmore (by simp only [List.length_append, List.length_singleton]; omega)]
    simp [words, lastInput, lastOutput]
  | Item.input file :: more, c, hw, hcap => by
    have hmore : ∀ x ∈ words more, x ≠ "<".toList ∧ x ≠ ">".toList :=
      fun x hx => hw x (by simpa [words] using hx)
    rw [renderItems, scanTokens_input, scanTokens_render more _ hmore (by simpa [words] using hcap)]
    simp [words, lastInput, lastOutput]
  | Item.output file :: more, c, hw, hcap => by
    have hmore : ∀ x ∈ words more, x ≠ "<".toList ∧ x ≠ ">".toList :=
      fun x hx => hw x (by simpa [words] using hx)
    rw [renderItems, scanTokens_output, scanTokens_render more _ hmore (by simpa [words] using hcap)]
    simp [words, lastInput, lastOutput]

/-- The loop over such tokens when they are more than `args` can hold. -/
theorem scanTokens_overrun : ∀ (items : List Item) (c : Command),
    (∀ w ∈ words items, w ≠ "<".toList ∧ w ≠ ">".toList) →
    c.args.length ≤ MAX_ARGS → MAX_ARGS < c.args.length + (words items).length →
    scanTokens (renderItems items) c = Except.error Fault.argsIndex
  | [], c, _, h1, h2 => by
    simp only [words, List.length_nil] at h2
    omega
  | Item.word w :: more, c, hw, h1, h2 => by
    have hw1 := hw w (by simp [words])
    have hmore : ∀ x ∈ words more, x ≠ "<".toList ∧ x ≠ ">".toList :=
      fun x hx => hw x (by simp [words, hx])
    simp only [words, List.length_cons] at h2
    rw [renderItems, scanTokens_word w _ c hw1.1 hw1.2]
    by_cases hlt : c.args.length < MAX_ARGS
    · rw [if_pos hlt]
      exact scanTokens_overrun more _ hmore
        (by simp only [List.length_append, List.length_singleton]; omega)
        (by simp only [List.length_append, List.length_singleton]; omega)
    · rw [if_neg hlt]
  | Item.input file :: more, c, hw, h1, h2 => by
    have hmore : ∀ x ∈ words more, x ≠ "<".toList ∧ x ≠ ">".toList :=
      fun x hx => hw x (by simpa [words] using hx)
    rw [renderItems, scanTokens_input]
    exact scanTokens_overrun more _ hmore h1 (by simpa [words] using h2)
  | Item.output file :: more, c, hw, h1, h2 => by
    have hmore : ∀ x ∈ words more, x ≠ "<".toList ∧ x ≠ ">".toList :=
      fun x hx => hw x (by simpa [words] using hx)
    rw [renderItems, scanTokens_output]
    exact scanTokens_overrun more _ hmore h1 (by simpa [words] using h2)

theorem renderItems_words (toks : List CString) :
    renderItems (toks.map Item.word) = toks ∧ words (toks.map Item.word) = toks ∧
    (∀ unset, lastInput (toks.map Item.word) unset = unset) ∧
    (∀ unset, lastOutput (toks.map Item.word) unset = unset) := by
  induction toks with
  | nil => simp [renderItems, words, lastInput, lastOutput]
  | cons t more ih =>
    obtain ⟨h1, h2, h3, h4⟩ := ih
    simp [renderItems, words, lastInput, lastOutput, h1, h2, h3, h4]

theorem renderItems_append (a b : List Item) :
    renderItems (a ++ b) = renderItems a ++ renderItems b ∧
    words (a ++ b) = words a ++ words b := by
  induction a with
  | nil => simp [renderItems, words]
  | cons x more ih =>
    obtain ⟨h1, h2⟩ := ih
    cases x <;> simp [renderItems, words, h1, h2]

theorem lastInput_append_word (a : List Item) (w unset : CString) :
    lastInput (a ++ [Item.word w]) unset = lastInput a unset ∧
    lastOutput (a ++ [Item.word w]) unset = lastOutput a unset := by
  induction a generalizing unset with
  | nil => simp [lastInput, lastOutput]
  | cons x more ih =>
    cases x <;> simp [lastInput, lastOutput, ih]

/-- The command builder on tokens made of ordinary tokens and complete
redirections, within the capacity of `args`. -/
theorem buildCommand_render (backgroundMode : Int) (items : List Item)
    (hwords : ∀ w ∈ words items, w ≠ "<".toList ∧ w ≠ ">".toList)
    (hsome : words items ≠ []) (hcap : (words items).length ≤ MAX_ARGS) :
    buildCommand backgroundMode (renderItems items) = Parse.command
      { args := dropAmpersand (words items),
        inFile := lastInput items [], outFile := lastOutput items [],
        backgroundFlag :=
          if (words items).getLast? = some "&".toList ∧ backgroundMode = 0 then 1 else 0 } := by
  have hscan := scanTokens_render items emptyCommand hwords
    (by simpa [emptyCommand] using hcap)
  simp only [emptyCommand, List.nil_append] at hscan
  obtain ⟨last, hlast⟩ : ∃ last, (words items).getLast? = some last := by
    cases h : (words items).getLast? with
    | none => exact absurd (List.getLast?_eq_none_iff.1 h) hsome
    | some last => exact ⟨last, rfl⟩
  simp only [buildCommand, hscan, emptyCommand, List.nil_append, stripBackground, hlast,
    dropAmpersand]
  by_cases hamp : last = "&".toList
  · subst hamp
    by_cases hb : backgroundMode = 0 <;> simp [hb]
  · have hamp2 : ¬ last = ['&'] := hamp
    simp [hamp2]

theorem parseLine_of_tokens (backgroundMode pid : Int) (command : CString)
    (toks : List CString) (h : lexLine pid command = Lexed.tokens toks) :
    parseLine backgroundMode pid command = buildCommand backgroundMode toks := by
  simp only [parseLine, h]

/-! ## C2: a plain line -/

/-- The round trip of a plain line within the capacity of `args`.  Take a line
(given with or without its final newline) that holds no `"$$"`, whose tokens
(the pieces between runs of spaces) are none of `"<"`, `">"`, `"&"`, whose
first token does not begin with `#`, and that has at most `MAX_ARGS` tokens.
The command `processCommand` builds from it has `args` equal to those tokens,
in order and unchanged, `inFile` and `outFile` unset and `backgroundFlag` 0. -/
theorem plain_line_round_trip (backgroundMode pid : Int) (line : CString)
    (hnl : '\n' ∉ line)
    (hmarker : ¬ "$$".toList <:+: line)
    (hreserved : ∀ t ∈ splitSpaces line,
      t ≠ "<".toList ∧ t ≠ ">".toList ∧ t ≠ "&".toList)
    (hfirst : ∃ t, (splitSpaces line).head? = some t ∧ t.head? ≠ some '#')
    (hcap : (splitSpaces line).length ≤ MAX_ARGS) :
    parseLine backgroundMode pid (line ++ ['\n']) = Parse.command
      { args := splitSpaces line, inFile := [], outFile := [], backgroundFlag := 0 } ∧
    parseLine backgroundMode pid line = Parse.command
      { args := splitSpaces line, inFile := [], outFile := [], backgroundFlag := 0 } := by
  obtain ⟨first, hhead, hfirst2⟩ := hfirst
  obtain ⟨more, hsplit⟩ : ∃ more, splitSpaces line = first :: more := by
    cases hs : splitSpaces line with
    | nil => simp [hs] at hhead
    | cons a more =>
      rw [hs] at hhead
      simp only [List.head?_cons, Option.some.injEq] at hhead
      exact ⟨more, by rw [hhead]⟩
  have hhash : line.head? ≠ some '#' := by
    intro e
    match line, e, hsplit with
    | c :: r, e, hsplit =>
      simp only [List.head?_cons, Option.some.injEq] at e
      subst e
      rw [splitSpaces_cons_ne '#' r (by decide)] at hsplit
      have := (List.cons.inj hsplit).1
      rw [← this] at hfirst2
      exact hfirst2 rfl
  have hne : first ≠ "#".toList := by
    intro e
    rw [e] at hfirst2
    exact hfirst2 rfl
  have hlex := lexLine_of_tokens pid line first more hnl hhash hmarker hsplit hne
  obtain ⟨r1, r2, r3, r4⟩ := renderItems_words (splitSpaces line)
  have hbuild := buildCommand_render backgroundMode ((splitSpaces line).map Item.word)
    (by rw [r2]; exact fun w hw => ⟨(hreserved w hw).1, (hreserved w hw).2.1⟩)
    (by rw [r2, hsplit]; simp) (by rw [r2]; exact hcap)
  have hlast : ¬ (splitSpaces line).getLast? = some "&".toList := by
    intro e
    exact (hreserved _ (List.mem_of_getLast?_eq_some e)).2.2 rfl
  rw [r1, r2, r3, r4] at hbuild
  simp only [dropAmpersand, hlast, false_and, if_false] at hbuild
  rw [← hsplit] at hlex
  exact ⟨by rw [parseLine_of_tokens _ _ _ _ hlex.1, hbuild],
    by rw [parseLine_of_tokens _ _ _ _ hlex.2, hbuild]⟩

/-- A line that meets the hypotheses of `plain_line_round_trip`. -/
theorem plain_line_round_trip_witness :
    parseLine 0 1234 "ls -l  /tmp\n".toList = Parse.command
      { args := ["ls".toList, "-l".toList, "/tmp".toList], inFile := [], outFile := [],
        backgroundFlag := 0 } :=
  (plain_line_round_trip 0 1234 "ls -l  /tmp".toList (by decide) (by decide) (by decide)
    ⟨"ls".toList, by decide, by decide⟩ (by decide)).1

theorem manyWords_succ (n : Nat) : manyWords (n + 1) = 'a' :: ' ' :: manyWords n := rfl

theorem manyWords_length (n : Nat) : (manyWords n).length = 2 * n := by
  induction n with
  | zero => rfl
  | succ n ih =>
    rw [manyWords_succ, List.length_cons, List.length_cons, ih]
    omega

theorem splitSpaces_manyWords (n : Nat) :
    splitSpaces (manyWords n) = List.replicate n ['a'] := by
  induction n with
  | zero => simp [manyWords, splitSpaces_nil]
  | succ n ih =>
    rw [manyWords_succ, splitSpaces_cons_ne 'a' _ (by decide)]
    simp [List.takeWhile, List.dropWhile, ih, List.replicate_succ]

theorem mem_manyWords (n : Nat) (c : Char) (h : c ∈ manyWords n) : c = 'a' ∨ c = ' ' := by
  induction n with
  | zero => simp [manyWords] at h
  | succ n ih =>
    rw [manyWords_succ] at h
    rcases List.mem_cons.1 h with h1 | h1
    · exact Or.inl h1
    · rcases List.mem_cons.1 h1 with h2 | h2
      · exact Or.inr h2
      · exact ih h2

theorem manyWords_plain (n : Nat) :
    '\n' ∉ manyWords n ∧ ¬ "$$".toList <:+: manyWords n := by
  constructor
  · intro h
    rcases mem_manyWords n _ h with e | e <;> exact absurd e (by decide)
  · intro h
    have hm : '$' ∈ manyWords n := h.subset (by simp)
    rcases mem_manyWords n _ hm with e | e <;> exact absurd e (by decide)

/-- C2, the code at the failing input: the line `a a ... a ` of 513 tokens `a`
(1026 characters and the newline, within what `fgets` reads) holds no `"$$"`,
no reserved token and no `#`, yet no command is built from it: the 513th
token is stored at `args[512]`, outside the array.  (For lines of at most
`MAX_ARGS` tokens see `plain_line_round_trip`.) -/
theorem plain_line_counterexample :
    (manyWords 513).length = 1026 ∧
    splitSpaces (manyWords 513) = List.replicate 513 ['a'] ∧
    parseLine 0 1234 (manyWords 513 ++ ['\n']) = Parse.fault Fault.argsIndex := by
  refine ⟨manyWords_length 513, splitSpaces_manyWords 513, ?_⟩
  have hsplit := splitSpaces_manyWords 513
  have hplain := manyWords_plain 513
  have hlex := (lexLine_of_tokens 1234 (manyWords 513) ['a'] (List.replicate 512 ['a'])
    hplain.1 (by rw [manyWords_succ]; decide) hplain.2
    (by rw [hsplit, List.replicate_succ]) (by decide)).1
  obtain ⟨r1, r2, _, _⟩ := renderItems_words (['a'] :: List.replicate 512 ['a'])
  have hscan := scanTokens_overrun ((['a'] :: List.replicate 512 ['a']).map Item.word)
    emptyCommand
    (by
      rw [r2]
      intro w hw
      have hw2 : w = ['a'] := by
        rcases List.mem_cons.1 hw with e | e
        · exact e
        · exact List.eq_of_mem_replicate e
      subst hw2
      decide)
    (by simp only [emptyCommand, List.length_nil, MAX_ARGS]; omega)
    (by
      rw [r2]
      simp only [emptyCommand, List.length_nil, List.length_cons, List.length_replicate,
        MAX_ARGS]
      omega)
  rw [r1] at hscan
  rw [parseLine_of_tokens _ _ _ _ hlex]
  simp only [buildCommand, hscan]

/-! ## C3: redirections -/

/-- C3, amended.  Take a line that lines 146-198 turn into tokens (so that the
expansion of `"$$"`, if the line holds any, has overrun neither the block of
`token` nor `expandedToken`), the tokens being ordinary tokens, none of them
`"<"` or `">"`, and redirections, each a `"<"` or `">"` followed by one token
(its file name), with at least one and at most `MAX_ARGS` ordinary tokens.  In the command `processCommand` builds, `outFile`
(respectively `inFile`) is the file name of the last `">"` (respectively
`"<"`) redirection and is unset when there is none; `args` consists of exactly
the ordinary tokens in their original order (neither an operator nor a file
name is among them), less a final `"&"`, which sets `backgroundFlag` when
`backgroundMode` is 0. -/
theorem redirection_extraction (backgroundMode pid : Int) (command : CString)
    (items : List Item)
    (hlex : lexLine pid command = Lexed.tokens (renderItems items))
    (hwords : ∀ w ∈ words items, w ≠ "<".toList ∧ w ≠ ">".toList)
    (hsome : words items ≠ []) (hcap : (words items).length ≤ MAX_ARGS) :
    parseLine backgroundMode pid command = Parse.command
      { args := dropAmpersand (words items),
        inFile := lastInput items [], outFile := lastOutput items [],
        backgroundFlag :=
          if (words items).getLast? = some "&".toList ∧ backgroundMode = 0 then 1 else 0 } := by
  rw [parseLine_of_tokens _ _ _ _ hlex]
  exact buildCommand_render backgroundMode items hwords hsome hcap

/-- The example of C3, `ls -l > out.txt`: its tokens are two ordinary tokens and
one redirection. -/
theorem redirection_extraction_witness :
    lexLine 1234 "ls -l > out.txt\n".toList
      = Lexed.tokens ["ls".toList, "-l".toList, ">".toList, "out.txt".toList] ∧
    parseLine 0 1234 "ls -l > out.txt\n".toList = Parse.command
      { args := ["ls".toList, "-l".toList], inFile := [], outFile := "out.txt".toList,
        backgroundFlag := 0 } :=
  ⟨by decide,
   redirection_extraction 0 1234 "ls -l > out.txt\n".toList
    [Item.word "ls".toList, Item.word "-l".toList, Item.output "out.txt".toList]
    (by decide) (by decide) (by decide) (by decide)⟩

/-- C3, counterexamples to the claim as stated.  In `ls > a > b` the token after
the first `">"` is `a`, and `outFile` is `b`.  In `cat < > out` the token `">"`
is followed by `out`, yet `">"` is taken as the input file name, `outFile`
stays unset and `out` is in `args`.  In `ls > out &` the other tokens are `ls`
and `&`, and `args` is `ls` alone.  From `> out`, which has no other token, no
command is built: `args[-1]` is read. -/
theorem redirection_counterexample :
    parseLine 0 1234 "ls > a > b\n".toList = Parse.command
      { args := ["ls".toList], inFile := [], outFile := "b".toList, backgroundFlag := 0 } ∧
    parseLine 0 1234 "cat < > out\n".toList = Parse.command
      { args := ["cat".toList, "out".toList], inFile := ">".toList, outFile := [],
        backgroundFlag := 0 } ∧
    parseLine 0 1234 "ls > out &\n".toList = Parse.command
      { args := ["ls".toList], inFile := [], outFile := "out".toList, backgroundFlag := 1 } ∧
    parseLine 0 1234 "> out\n".toList = Parse.fault Fault.argsIndex := by
  decide

/-! ## C4: the trailing `&` -/

/-- C4, amended.  Take a line that lines 146-198 turn into tokens (so that the
expansion of `"$$"`, if the line holds any, has overrun neither the block of
`token` nor `expandedToken`), the tokens ending in `"&"` and those before it
being ordinary tokens and complete redirections (so that the `"&"` is not
taken as the file name of a `"<"` or `">"` just before it), with
fewer than `MAX_ARGS` ordinary tokens (at least one, as in the claim, or
none).  In the command `processCommand` builds, the `"&"` is removed from
`args` whatever `backgroundMode` is, and `backgroundFlag` is 1 if
`backgroundMode` is 0 and is 0 otherwise. -/
theorem background_marker (backgroundMode pid : Int) (command : CString)
    (items : List Item)
    (hlex : lexLine pid command = Lexed.tokens (renderItems items ++ ["&".toList]))
    (hwords : ∀ w ∈ words items, w ≠ "<".toList ∧ w ≠ ">".toList)
    (hcap : (words items).length < MAX_ARGS) :
    parseLine backgroundMode pid command = Parse.command
      { args := words items, inFile := lastInput items [], outFile := lastOutput items [],
        backgroundFlag := if backgroundMode = 0 then 1 else 0 } := by
  obtain ⟨r1, r2⟩ := renderItems_append items [Item.word "&".toList]
  obtain ⟨r3, r4⟩ := lastInput_append_word items "&".toList []
  have hr : renderItems [Item.word "&".toList] = ["&".toList] := rfl
  have hw : words [Item.word "&".toList] = ["&".toList] := rfl
  rw [hr] at r1
  rw [hw] at r2
  have hbuild := buildCommand_render backgroundMode (items ++ [Item.word "&".toList])
    (by
      rw [r2]
      intro w hmem
      rcases List.mem_append.1 hmem with h | h
      · exact hwords w h
      · rw [List.mem_singleton.1 h]
        decide)
    (by rw [r2]; simp)
    (by rw [r2, List.length_append, List.length_singleton]; omega)
  rw [r1, r2, r3, r4] at hbuild
  have hlast : (words items ++ ["&".toList]).getLast? = some "&".toList := by simp
  rw [parseLine_of_tokens _ _ _ _ hlex, hbuild]
  simp only [dropAmpersand, hlast, true_and, if_true, List.dropLast_concat]

/-- The example of C4, `sleep 5 &`, in both modes. -/
theorem background_marker_witness :
    lexLine 1234 "sleep 5 &\n".toList
      = Lexed.tokens ["sleep".toList, "5".toList, "&".toList] ∧
    parseLine 0 1234 "sleep 5 &\n".toList = Parse.command
      { args := ["sleep".toList, "5".toList], inFile := [], outFile := [],
        backgroundFlag := 1 } ∧
    parseLine 1 1234 "sleep 5 &\n".toList = Parse.command
      { args := ["sleep".toList, "5".toList], inFile := [], outFile := [],
        backgroundFlag := 0 } :=
  ⟨by decide,
   background_marker 0 1234 "sleep 5 &\n".toList
      [Item.word "sleep".toList, Item.word "5".toList] (by decide) (by decide) (by decide),
   background_marker 1 1234 "sleep 5 &\n".toList
      [Item.word "sleep".toList, Item.word "5".toList] (by decide) (by decide) (by decide)⟩

/-- C4, counterexample to the claim as stated: in `ls > &`, read with
`backgroundMode` 0, the final token is `"&"` and `ls` is another token of
`args`, yet `backgroundFlag` stays 0: the `"&"` is taken as the output file
name. -/
theorem background_marker_counterexample :
    parseLine 0 1234 "ls > &\n".toList = Parse.command
      { args := ["ls".toList], inFile := [], outFile := "&".toList, backgroundFlag := 0 } := by
  decide

/-! ## C5: the text of `status` -/

theorem decimal_ofNat (n : Nat) : decimal (n : Int) = Nat.toDigits 10 n := rfl

set_option maxRecDepth 8000 in
theorem wait_status_exited : ∀ code : Nat, code ≤ 255 →
    WIFEXITED (exitedStatus code) = true ∧ WEXITSTATUS (exitedStatus code) = code := by
  decide

set_option maxRecDepth 8000 in
theorem wait_status_signaled : ∀ sig : Nat, sig < 128 → 0 < sig →
    WIFEXITED (signaledStatus sig false) = false ∧
    WIFEXITED (signaledStatus sig true) = false ∧
    signaledStatus sig false = sig ∧ signaledStatus sig true = sig + 128 ∧
    WTERMSIG (signaledStatus sig true) = sig := by
  decide

/-- For a child that exited with `code` (0 to 255) `getStatus` prints
`exit value code`. -/
theorem getStatus_exited (code : Nat) (h : code ≤ 255) :
    getStatus (exitedStatus code) = "exit value ".toList ++ decimal code ++ ['\n'] := by
  obtain ⟨h1, h2⟩ := wait_status_exited code h
  simp only [getStatus, h1, h2, if_true]

/-- For a child killed by signal `sig` `getStatus` prints the whole status word:
`sig` without the core-dump flag, `sig + 128` with it. -/
theorem getStatus_signaled (sig : Nat) (h : sig < 128) (h0 : 0 < sig) :
    getStatus (signaledStatus sig false)
      = "terminated by signal ".toList ++ decimal sig ++ ['\n'] ∧
    getStatus (signaledStatus sig true)
      = "terminated by signal ".toList ++ decimal (sig + 128 : Nat) ++ ['\n'] := by
  obtain ⟨h1, h2, h3, h4, _⟩ := wait_status_signaled sig h h0
  rw [h3] at h1
  rw [h4] at h2
  rw [h3, h4]
  constructor
  · simp only [getStatus, h1, Bool.false_eq_true, if_false]
  · simp only [getStatus, h2, Bool.false_eq_true, if_false]

/-- C5, the code at the failing input: for a child killed by signal 11 with a core
dump (status word 139) `getStatus` prints `terminated by signal 139`, the
whole status word, where the signal number is 11.  The two examples of the
claim hold: status 0 prints `exit value 0`, and a child killed by signal 9
(no core dump) gives `terminated by signal 9`. -/
theorem status_text_core_dump :
    getStatus (signaledStatus 11 true) = "terminated by signal 139\n".toList ∧
    WTERMSIG (signaledStatus 11 true) = 11 ∧
    getStatus 0 = "exit value 0\n".toList ∧
    getStatus (signaledStatus 9 false) = "terminated by signal 9\n".toList := by
  decide

/-! ## C6: `statusFlag` and background children -/

/-- C6, the code at the failing input.  A session from the initial state:
`sleep 100 &` is launched as child 4242; the foreground command
`kill -15 4242` runs as child 4243 and exits with status 0; the sweep that
follows reaps 4242 (killed by signal 15) through `waitpid(-1, &statusFlag,
WNOHANG)`, which stores its status word in `statusFlag`; `status` then prints
`terminated by signal 15`, the record of the background child, and not
`exit value 0`, the record of the last foreground command. -/
theorem status_after_background_reap :
    (runSession initialState
      [(backgroundEnv 4242, "sleep 100 &\n".toList),
       (foregroundEnv 4243 0 [{ ret := 4242, status := 15 }], "kill -15 4242\n".toList),
       (quietEnv, "status\n".toList)]).trace
    = [Event.fork, Event.wait 4242 true { ret := 0, status := 0 },
       Event.write "background pid is 4242\n".toList,
       Event.wait (-1) true { ret := 0, status := 0 },
       Event.fork, Event.wait 4243 false { ret := 4243, status := 0 },
       Event.wait (-1) true { ret := 4242, status := 15 },
       Event.write "background pid 4242 is done: ".toList,
       Event.write "terminated by signal 15\n".toList,
       Event.wait (-1) true { ret := 0, status := 0 },
       Event.write "terminated by signal 15\n".toList] := by
  decide

/-! ## C7, C8: comments and blank lines -/

theorem strtok_r_hash (rest : CString) :
    ∃ tail save, strtok_r ('#' :: rest) '\n' = some ('#' :: tail, save) ∧
      strspn ('#' :: rest) '\n' = 0 :=
  ⟨_, _, strtok_r_cons_ne '\n' '#' rest (by decide), by simp [strspn, List.takeWhile]⟩

/-- C7, amended.  For every line whose first character is `#`, `processCommand`
returns without building a command: nothing is written, no built-in is run,
no process is launched, and the globals are unchanged; the same holds for the
line handed over by `main`. -/
theorem comment_line_ignored (s : ShellState) (env : Env) (rest : CString) :
    processCommand s env ('#' :: rest) = { trace := [], outcome := Outcome.returned s } ∧
    mainStep s env ('#' :: rest) = { trace := [], outcome := Outcome.returned s } := by
  obtain ⟨tail, save, h1, h2⟩ := strtok_r_hash rest
  have hp : processCommand s env ('#' :: rest)
      = { trace := [], outcome := Outcome.returned s } := by
    simp [processCommand, parseLine, lexLine, h1, h2]
  exact ⟨hp, by simp [mainStep, hp]⟩

/-- C7, counterexamples to the claim as stated.  The first token of ` #comment`
begins with `#` after a leading space; the line is not ignored: the token is
taken as a program name, a child is forked and waited for, and its status
word (here 256, exit code 1) is stored in `statusFlag`.  For ` # comment`,
whose first token is exactly `#`, the test of line 192 succeeds but
`free(token)` is then given a pointer one character past the start of the
buffer that `calloc` returned. -/
theorem comment_counterexample :
    processCommand initialState (foregroundEnv 101 256 []) " #comment\n".toList
      = { trace := [Event.fork, Event.wait 101 false { ret := 101, status := 256 },
                    Event.wait (-1) true { ret := 0, status := 0 }],
          outcome := Outcome.returned { initialState with statusFlag := 256 } } ∧
    processCommand initialState quietEnv " # comment\n".toList
      = { trace := [], outcome := Outcome.fault Fault.invalidFree } :=
  ⟨by rfl, by decide⟩

/-- C8, the code at the failing input: for the empty line `strtok_r` returns
`NULL`, which line 174 hands to `strcmp`; the call does not complete.  The
two other lines of the claim are handled as it says: `main` skips a line that
is a newline alone, and `# comment` is ignored by `processCommand`; nothing
is done and the globals are unchanged. -/
theorem blank_line_faults (s : ShellState) (env : Env) :
    mainStep s env [] = { trace := [], outcome := Outcome.fault Fault.nullString } ∧
    mainStep s env ['\n'] = { trace := [], outcome := Outcome.returned s } ∧
    mainStep s env "# comment".toList = { trace := [], outcome := Outcome.returned s } ∧
    mainStep s env "# comment\n".toList = { trace := [], outcome := Outcome.returned s } := by
  exact ⟨rfl, rfl, rfl, rfl⟩

/-! ## Lemmas: the Process Table -/

theorem killLoop_terminated : ∀ (ps rest : List Int), (∀ p ∈ ps, p ≠ 0) →
    killLoop (ps ++ 0 :: rest) = (ps.map (fun p => Event.kill p 9), none)
  | [], rest, _ => by simp [killLoop]
  | p :: ps, rest, h => by
    have hp : p ≠ 0 := h p (by simp)
    have ih := killLoop_terminated ps rest (fun q hq => h q (by simp [hq]))
    simp [killLoop, hp, ih]

theorem killLoop_unterminated : ∀ (ps : List Int), (∀ p ∈ ps, p ≠ 0) →
    killLoop ps = (ps.map (fun p => Event.kill p 9), some Fault.processArrayIndex)
  | [], _ => by simp [killLoop]
  | p :: ps, h => by
    have hp : p ≠ 0 := h p (by simp)
    have ih := killLoop_unterminated ps (fun q hq => h q (by simp [hq]))
    simp [killLoop, hp, ih]

theorem set_length_append (t : List Int) (x p : Int) (rest : List Int) :
    (t ++ x :: rest).set t.length p = t ++ p :: rest := by
  induction t with
  | nil => rfl
  | cons a t ih => simp [ih]

theorem wellFormed_initial : WellFormed initialState := by
  refine ⟨by simp [initialState], by simp [initialState], ?_, by simp [initialState]⟩
  intro p hp
  simp [tracked, initialState] at hp

/-- With a free slot left, the table is its identifiers followed by `NULL`. -/
theorem wellFormed_split (s : ShellState) (hwf : WellFormed s)
    (hcap : s.processIndex < MAX_ARGS) :
    s.processArray = tracked s ++ 0 :: List.replicate (MAX_ARGS - s.processIndex - 1) 0 ∧
    (tracked s).length = s.processIndex := by
  obtain ⟨_, hlen, _, hdrop⟩ := hwf
  have h1 : MAX_ARGS - s.processIndex = (MAX_ARGS - s.processIndex - 1) + 1 := by omega
  rw [h1, List.replicate_succ] at hdrop
  constructor
  · rw [← hdrop]
    exact (List.take_append_drop _ _).symm
  · simp only [tracked, List.length_take]
    omega

theorem tableStep_wellFormed (s s2 : ShellState) (child : Int) (hwf : WellFormed s)
    (hstep : TableStep s child s2) : WellFormed s2 ∧ tracked s <+: tracked s2 := by
  obtain ⟨_, h | ⟨hc, hcap, harr, hidx⟩⟩ := hstep
  · have ht : tracked s2 = tracked s := by simp [tracked, h.1, h.2]
    refine ⟨?_, by rw [ht]⟩
    obtain ⟨w1, w2, w3, w4⟩ := hwf
    exact ⟨by rw [h.2]; exact w1, by rw [h.1]; exact w2, by rw [ht]; exact w3,
      by rw [h.1, h.2]; exact w4⟩
  · obtain ⟨hsplit, htl⟩ := wellFormed_split s hwf hcap
    obtain ⟨w1, w2, w3, w4⟩ := hwf
    have hset : s2.processArray
        = (tracked s ++ [child]) ++ List.replicate (MAX_ARGS - s.processIndex - 1) 0 := by
      have e := set_length_append (tracked s) 0 child
        (List.replicate (MAX_ARGS - s.processIndex - 1) 0)
      rw [htl, ← hsplit] at e
      rw [harr, e]
      simp
    have hlen2 : (tracked s ++ [child]).length = s2.processIndex := by
      rw [List.length_append, htl, hidx]
      rfl
    have ht : tracked s2 = tracked s ++ [child] := by
      rw [tracked, hset, ← hlen2]
      exact List.take_left _ _
    refine ⟨⟨by omega, ?_, ?_, ?_⟩, by rw [ht]; exact List.prefix_append _ _⟩
    · rw [harr, List.length_set]
      exact w2
    · intro p hp
      rw [ht] at hp
      rcases List.mem_append.1 hp with h | h
      · exact w3 p h
      · rw [List.mem_singleton.1 h]
        exact hc
    · rw [hset, ← hlen2, List.drop_left, hlen2, hidx]
      rfl

theorem tableStep_same (s : ShellState) (child : Int) (statusFlag : Nat) :
    TableStep s child { s with statusFlag := statusFlag } ∧ TableStep s child s :=
  ⟨⟨rfl, Or.inl ⟨rfl, rfl⟩⟩, ⟨rfl, Or.inl ⟨rfl, rfl⟩⟩⟩

theorem sweepAndReturn_returned (s : ShellState) (env : Env) (before : List Event)
    (s2 : ShellState) (h : (sweepAndReturn s env before).outcome = Outcome.returned s2) :
    s2.backgroundMode = s.backgroundMode ∧ s2.processArray = s.processArray ∧
    s2.processIndex = s.processIndex := by
  unfold sweepAndReturn at h
  split at h
  · simp only [Outcome.returned.injEq] at h
    subst h
    exact ⟨rfl, rfl, rfl⟩
  · simp only [Outcome.returned.injEq] at h
    subst h
    exact ⟨rfl, rfl, rfl⟩

theorem parent_returned (s : ShellState) (env : Env) (c : Command) (s2 : ShellState)
    (hfork : env.fork ≠ 0) (h : (parent s env c).outcome = Outcome.returned s2) :
    TableStep s env.fork s2 := by
  unfold parent at h
  split at h
  · split at h
    · rename_i hcap
      obtain ⟨h1, h2, h3⟩ := sweepAndReturn_returned _ env _ s2 h
      exact ⟨h1, Or.inr ⟨hfork, hcap, h2, h3⟩⟩
    · simp at h
  · obtain ⟨h1, h2, h3⟩ := sweepAndReturn_returned _ env _ s2 h
    exact ⟨h1, Or.inl ⟨h2, h3⟩⟩

theorem andThen_returned (a b : List Event × Option Outcome) (s2 : ShellState)
    (h : (andThen a b).2 = some (Outcome.returned s2)) :
    a.2 = some (Outcome.returned s2) ∨ b.2 = some (Outcome.returned s2) := by
  unfold andThen at h
  split at h
  · rename_i o ho
    simp only [Option.some.injEq] at h
    exact Or.inl (by rw [ho, h])
  · exact Or.inr h

theorem redirectOutput_not_returned (env : Env) (path outFile : CString) (s2 : ShellState) :
    (redirectOutput env path outFile).2 ≠ some (Outcome.returned s2) := by
  unfold redirectOutput
  simp only
  split
  · simp
  · split <;> simp

theorem redirectInput_not_returned (env : Env) (inFile : CString) (s2 : ShellState) :
    (redirectInput env inFile).2 ≠ some (Outcome.returned s2) := by
  unfold redirectInput
  simp only
  split
  · simp
  · split <;> simp

theorem execute_returned (s : ShellState) (env : Env) (c : Command) (s2 : ShellState)
    (h : (execute s env c).2 = some (Outcome.returned s2)) : s2 = s := by
  unfold execute at h
  split at h
  · simp at h
  · split at h
    · split at h
      · simp at h
      · split at h
        · simp at h
        · simp only [Option.some.injEq, Outcome.returned.injEq] at h
          exact h.symm
    · simp at h

theorem child_returned (s : ShellState) (env : Env) (c : Command) (s2 : ShellState)
    (h : (child s env c).2 = some (Outcome.returned s2)) : s2 = s := by
  unfold child at h
  rcases andThen_returned _ _ s2 h with h1 | h1
  · split at h1 <;> simp at h1
  · rcases andThen_returned _ _ s2 h1 with h2 | h2
    · split at h2
      · exact absurd h2 (redirectOutput_not_returned _ _ _ _)
      · simp at h2
    · rcases andThen_returned _ _ s2 h2 with h3 | h3
      · split at h3
        · exact absurd h3 (redirectOutput_not_returned _ _ _ _)
        · simp at h3
      · rcases andThen_returned _ _ s2 h3 with h4 | h4
        · split at h4
          · exact absurd h4 (redirectInput_not_returned _ _ _)
          · simp at h4
        · exact execute_returned s env c s2 h4

theorem launch_returned (s : ShellState) (env : Env) (c : Command) (s2 : ShellState)
    (h : (launch s env c).outcome = Outcome.returned s2) : TableStep s env.fork s2 := by
  unfold launch at h
  split at h
  · simp at h
  · split at h
    · split at h
      · rename_i o ho
        simp only at h
        rw [h] at ho
        rw [child_returned s env c s2 ho]
        exact (tableStep_same s env.fork 0).2
      · simp only [Outcome.returned.injEq] at h
        rw [← h]
        exact (tableStep_same s env.fork 0).2
    · rename_i hfork
      exact parent_returned s env c s2 hfork h

theorem dispatch_returned (s : ShellState) (env : Env) (c : Command) (s2 : ShellState)
    (h : (dispatch s env c).outcome = Outcome.returned s2) : TableStep s env.fork s2 := by
  unfold dispatch at h
  split at h
  · simp at h
  · split at h
    · split at h
      · simp at h
      · simp only [Outcome.returned.injEq] at h
        rw [← h]
        exact (tableStep_same s env.fork 0).2
    · split at h
      · split at h <;> simp at h
      · split at h
        · simp only [Outcome.returned.injEq] at h
          rw [← h]
          exact (tableStep_same s env.fork 0).2
        · exact launch_returned s env c s2 h

/-- A call of `processCommand` that returns leaves the table as it was, or has
stored the new child in its first free slot; it never removes an identifier. -/
theorem processCommand_returned (s : ShellState) (env : Env) (command : CString)
    (s2 : ShellState) (h : (processCommand s env command).outcome = Outcome.returned s2) :
    TableStep s env.fork s2 := by
  unfold processCommand at h
  split at h
  · simp at h
  · simp at h
  · split at h
    · simp only [Outcome.returned.injEq] at h
      rw [← h]
      exact (tableStep_same s env.fork 0).2
    · simp at h
  · exact dispatch_returned s env _ s2 h

theorem mainStep_returned (s : ShellState) (env : Env) (command : CString)
    (s2 : ShellState) (h : (mainStep s env command).outcome = Outcome.returned s2) :
    TableStep s env.fork s2 := by
  unfold mainStep at h
  split at h
  · simp only [Outcome.returned.injEq] at h
    rw [← h]
    exact (tableStep_same s env.fork 0).2
  · exact processCommand_returned s env command s2 h

/-- Over a whole session the table stays well formed and only grows. -/
theorem runSession_returned : ∀ (steps : List (Env × CString)) (s s2 : ShellState),
    WellFormed s → (runSession s steps).outcome = Outcome.returned s2 →
    WellFormed s2 ∧ tracked s <+: tracked s2 ∧ s2.backgroundMode = s.backgroundMode
  | [], s, s2, hwf, h => by
    simp only [runSession, Outcome.returned.injEq] at h
    rw [← h]
    exact ⟨hwf, List.prefix_refl _, rfl⟩
  | (env, command) :: more, s, s2, hwf, h => by
    unfold runSession at h
    split at h
    · rename_i s1 h1
      have hstep := mainStep_returned s env command s1 h1
      obtain ⟨hwf1, hpre1⟩ := tableStep_wellFormed s s1 env.fork hwf hstep
      obtain ⟨hwf2, hpre2, hm⟩ := runSession_returned more s1 s2 hwf1 h
      exact ⟨hwf2, hpre1.trans hpre2, by rw [hm, hstep.1]⟩
    · rename_i hne
      exact absurd h (hne s2)

theorem parseLine_exit (backgroundMode pid : Int) :
    parseLine backgroundMode pid "exit\n".toList = Parse.command
      { args := ["exit".toList], inFile := [], outFile := [], backgroundFlag := 0 } := rfl

theorem processCommand_exit (s : ShellState) (env : Env) :
    processCommand s env "exit\n".toList =
      match (killLoop s.processArray).2 with
      | some f => { trace := (killLoop s.processArray).1, outcome := Outcome.fault f }
      | none => { trace := (killLoop s.processArray).1, outcome := Outcome.exited 0 } := by
  simp only [processCommand, parseLine_exit, dispatch]
  rfl

/-- With a free slot left in the table, `exit` sends signal 9 to the tracked
identifiers, one `kill` each, in the order of the table, and then ends the
shell with status 0. -/
theorem exit_signals_tracked (s : ShellState) (env : Env) (hwf : WellFormed s)
    (hcap : s.processIndex < MAX_ARGS) :
    processCommand s env "exit\n".toList =
      { trace := (tracked s).map (fun p => Event.kill p 9), outcome := Outcome.exited 0 } := by
  obtain ⟨hsplit, _⟩ := wellFormed_split s hwf hcap
  have hk := killLoop_terminated (tracked s)
    (List.replicate (MAX_ARGS - s.processIndex - 1) 0) hwf.2.2.1
  rw [← hsplit] at hk
  rw [processCommand_exit, hk]

theorem wellFormed_oneTracked : WellFormed oneTracked ∧ tracked oneTracked = [4242] := by
  have hstep : TableStep initialState 4242 oneTracked :=
    ⟨rfl, Or.inr ⟨by decide, by decide, rfl, rfl⟩⟩
  exact ⟨(tableStep_wellFormed _ _ _ wellFormed_initial hstep).1, rfl⟩

/-! ## C9: the Process Table after a sweep -/

/-- C9, amended.  No call removes an identifier from the Process Table: over any
sequence of lines processed from a well-formed table (background launches and
the sweeps that reap and report their children among them) the identifiers
tracked at the start remain, in place, those launched in the background since
being added after them.  When `exit` is then read with a free slot left in
the table, it sends signal 9 to every tracked identifier, reaped or not,
and ends the shell with status 0. -/
theorem table_never_shrinks (s s2 : ShellState) (steps : List (Env × CString)) (env : Env)
    (hwf : WellFormed s)
    (hrun : (runSession s steps).outcome = Outcome.returned s2)
    (hcap : s2.processIndex < MAX_ARGS) :
    tracked s <+: tracked s2 ∧
    processCommand s2 env "exit\n".toList =
      { trace := (tracked s2).map (fun p => Event.kill p 9),
        outcome := Outcome.exited 0 } := by
  obtain ⟨hwf2, hpre, _⟩ := runSession_returned steps s s2 hwf hrun
  exact ⟨hpre, exit_signals_tracked s2 env hwf2 hcap⟩

/-- A session that meets the hypotheses of `table_never_shrinks`: 4242 is
tracked; while `ls` runs in the foreground the sweep reaps 4242 and reports
it; `exit` still signals 4242. -/
theorem table_never_shrinks_witness :
    WellFormed oneTracked ∧
    (runSession oneTracked
      [(foregroundEnv 4243 0 [{ ret := 4242, status := 0 }], "ls\n".toList)]).outcome
      = Outcome.returned oneTracked ∧
    oneTracked.processIndex < MAX_ARGS ∧
    (runSession oneTracked
      [(foregroundEnv 4243 0 [{ ret := 4242, status := 0 }], "ls\n".toList)]).trace
      = [Event.fork, Event.wait 4243 false { ret := 4243, status := 0 },
         Event.wait (-1) true { ret := 4242, status := 0 },
         Event.write "background pid 4242 is done: ".toList,
         Event.write "exit value 0\n".toList,
         Event.wait (-1) true { ret := 0, status := 0 }] ∧
    (tracked oneTracked <+: tracked oneTracked ∧
     processCommand oneTracked quietEnv "exit\n".toList =
      { trace := [Event.kill 4242 9], outcome := Outcome.exited 0 }) :=
  ⟨wellFormed_oneTracked.1, by rfl, by decide, by decide,
    table_never_shrinks oneTracked oneTracked
      [(foregroundEnv 4243 0 [{ ret := 4242, status := 0 }], "ls\n".toList)] quietEnv
      wellFormed_oneTracked.1 (by rfl) (by decide)⟩

/-- C9, counterexample to the claim as stated.  A session from the initial
state: `sleep 100 &` is launched as child 4242; after the foreground command
`ls` the sweep reaps 4242 and reports it as done; `exit` then sends signal 9
to 4242 all the same: the identifier is both reaped by the sweep and signaled
by `exit`. -/
theorem reaped_and_signaled :
    runSession initialState
      [(backgroundEnv 4242, "sleep 100 &\n".toList),
       (foregroundEnv 4243 0 [{ ret := 4242, status := 0 }], "ls\n".toList),
       (quietEnv, "exit\n".toList)]
    = { trace :=
          [Event.fork, Event.wait 4242 true { ret := 0, status := 0 },
           Event.write "background pid is 4242\n".toList,
           Event.wait (-1) true { ret := 0, status := 0 },
           Event.fork, Event.wait 4243 false { ret := 4243, status := 0 },
           Event.wait (-1) true { ret := 4242, status := 0 },
           Event.write "background pid 4242 is done: ".toList,
           Event.write "exit value 0\n".toList,
           Event.wait (-1) true { ret := 0, status := 0 },
           Event.kill 4242 9],
        outcome := Outcome.exited 0 } := by
  decide

/-! ## C10: `exit` and the Process Table -/

theorem parseLine_sleep (pid : Int) :
    parseLine 0 pid "sleep 100 &\n".toList = Parse.command
      { args := ["sleep".toList, "100".toList], inFile := [], outFile := [],
        backgroundFlag := 1 } := rfl

theorem mainStep_exit (s : ShellState) (env : Env) :
    mainStep s env "exit\n".toList = processCommand s env "exit\n".toList := rfl

/-- One background launch from a table with a free slot. -/
theorem mainStep_background (s : ShellState) (child : Int) (hmode : s.backgroundMode = 0)
    (hcap : s.processIndex < MAX_ARGS) (h1 : child ≠ -1) (h0 : child ≠ 0) :
    (mainStep s (backgroundEnv child) "sleep 100 &\n".toList).outcome
      = Outcome.returned (afterLaunch s child) := by
  have hp : parseLine s.backgroundMode (backgroundEnv child).pid "sleep 100 &\n".toList
      = Parse.command { args := ["sleep".toList, "100".toList], inFile := [], outFile := [],
                        backgroundFlag := 1 } := by
    rw [hmode]
    exact parseLine_sleep _
  have hm : mainStep s (backgroundEnv child) "sleep 100 &\n".toList
      = processCommand s (backgroundEnv child) "sleep 100 &\n".toList := rfl
  have hfork : (backgroundEnv child).fork = child := rfl
  rw [hm]
  simp only [processCommand, hp, dispatch]
  have e1 : ¬ "sleep".toList = "cd".toList := by decide
  have e2 : ¬ "sleep".toList = "exit".toList := by decide
  have e3 : ¬ "sleep".toList = "status".toList := by decide
  simp only [e1, e2, e3, if_false, launch, hfork, h1, h0, parent, hmode, hcap, and_self,
    if_true, sweepAndReturn]
  congr 1
  obtain ⟨mode, status, array, index⟩ := s
  simp only at hmode
  subst hmode
  rfl

theorem afterLaunch_facts (s : ShellState) (child : Int) (hwf : WellFormed s)
    (hcap : s.processIndex < MAX_ARGS) (h0 : child ≠ 0) :
    WellFormed (afterLaunch s child) ∧
    (afterLaunch s child).backgroundMode = s.backgroundMode ∧
    (afterLaunch s child).processIndex = s.processIndex + 1 :=
  ⟨(tableStep_wellFormed s (afterLaunch s child) child hwf
      ⟨rfl, Or.inr ⟨h0, hcap, rfl, rfl⟩⟩).1, rfl, rfl⟩

/-- The session of `n` background launches, followed by the lines `more`. -/
theorem runSession_backgroundLaunches : ∀ (n : Nat) (s : ShellState) (first : Int)
    (more : List (Env × CString)),
    WellFormed s → s.backgroundMode = 0 → s.processIndex + n ≤ MAX_ARGS → 0 < first →
    (runSession s (backgroundLaunches first n ++ more)).outcome
      = (runSession (afterLaunches s first n) more).outcome ∧
    WellFormed (afterLaunches s first n) ∧
    (afterLaunches s first n).processIndex = s.processIndex + n
  | 0, s, first, more, hwf, _, _, _ => ⟨rfl, hwf, rfl⟩
  | n + 1, s, first, more, hwf, hmode, hcap, hpos => by
    have hstep := mainStep_background s first hmode (by omega) (by omega) (by omega)
    obtain ⟨f1, f2, f3⟩ := afterLaunch_facts s first hwf (by omega) (by omega)
    obtain ⟨r1, r2, r3⟩ := runSession_backgroundLaunches n (afterLaunch s first) (first + 1)
      more f1 (by rw [f2, hmode]) (by rw [f3]; omega) (by omega)
    simp only [afterLaunches]
    refine ⟨?_, r2, by rw [r3, f3]; omega⟩
    rw [← r1]
    simp only [backgroundLaunches, List.cons_append, runSession, hstep]
    rfl

/-- C10, the code at the failing input.  A session from the initial state in
which `sleep 100 &` is launched 512 times (children 1000 to 1511), so that
every slot of `processArray` holds an identifier, and `exit` is read next:
the loop of lines 255-259 finds no `NULL` in the array and reads
`processArray[512]`, outside it; the shell does not end with status 0. -/
theorem exit_with_full_table :
    (runSession initialState
      (backgroundLaunches 1000 512 ++ [(quietEnv, "exit\n".toList)])).outcome
      = Outcome.fault Fault.processArrayIndex := by
  obtain ⟨r1, r2, r3⟩ := runSession_backgroundLaunches 512 initialState 1000
    [(quietEnv, "exit\n".toList)] wellFormed_initial rfl
    (by simp only [initialState, MAX_ARGS]; omega) (by omega)
  obtain ⟨_, hlen, hall, _⟩ := r2
  have hidx : (afterLaunches initialState 1000 512).processIndex = MAX_ARGS := by
    rw [r3]
    rfl
  have htr : tracked (afterLaunches initialState 1000 512)
      = (afterLaunches initialState 1000 512).processArray := by
    rw [tracked, hidx, ← hlen]
    exact List.take_length _
  rw [htr] at hall
  have hk := killLoop_unterminated _ hall
  have hm := mainStep_exit (afterLaunches initialState 1000 512) quietEnv
  rw [r1]
  simp only [runSession, hm, processCommand_exit, hk]

/-! ## C11: a failing `fork` -/

/-- C11, the code at the failing input: when `fork` returns `-1` for the command
`ls`, `processCommand` calls `perror` and then `exit(1)` (lines 277-278): the
shell process ends with status 1 and does not return to the read loop.  The
statements `statusFlag = 1; break;` that follow `exit(1)` are never reached. -/
theorem fork_failure_ends_shell (s : ShellState) :
    processCommand s forkFailsEnv "ls\n".toList
      = { trace := [Event.fork, Event.perror "fork() failed!".toList],
          outcome := Outcome.exited 1 } ∧
    mainStep s forkFailsEnv "ls\n".toList
      = { trace := [Event.fork, Event.perror "fork() failed!".toList],
          outcome := Outcome.exited 1 } :=
  ⟨rfl, rfl⟩

/-! ## C12: a redirection operator at the end of the line -/

/-- C12, the code at the failing inputs: for `cat <` the token after `"<"` is
`NULL` and line 216 hands it to `strdup`; for `ls >` line 208 hands it to
`sprintf` for `"%s"`.  In both cases no command is built and no path is set to
the empty string. -/
theorem dangling_redirection_faults (backgroundMode pid : Int) :
    parseLine backgroundMode pid "cat <\n".toList = Parse.fault Fault.nullString ∧
    parseLine backgroundMode pid "ls >\n".toList = Parse.fault Fault.nullString :=
  ⟨rfl, rfl⟩

/-! ## C13: a line that leaves `args` empty -/

/-- C13, the code at the failing inputs: for a bare `&` the entry `args[0]` has
been set to `NULL` by line 233 and line 246 hands it to `strcmp`; for
`> out.txt` no token is stored and line 230 reads `args[-1]`.  In both cases
`processCommand` does not complete. -/
theorem empty_argv_faults (s : ShellState) (env : Env) :
    processCommand s env "&\n".toList
      = { trace := [], outcome := Outcome.fault Fault.nullString } ∧
    processCommand s env "> out.txt\n".toList
      = { trace := [], outcome := Outcome.fault Fault.argsIndex } :=
  ⟨rfl, rfl⟩

/-! ## C14: an `&` that is not the last token -/

theorem getLast?_append_cons (a : List CString) (x last : CString) (b : List CString)
    (h : b.getLast? = some last) : (a ++ x :: b).getLast? = some last := by
  obtain ⟨ys, rfl⟩ := List.getLast?_eq_some_iff.1 h
  have e : a ++ x :: (ys ++ [last]) = (a ++ x :: ys) ++ [last] := by simp
  rw [e, List.getLast?_concat]

/-- C14, amended.  Take a line that lines 146-198 turn into tokens (so that the
expansion of `"$$"`, if the line holds any, has overrun neither the block of
`token` nor `expandedToken`), the tokens being ordinary tokens and complete
redirections, among them a `"&"` in the place of an ordinary token, such that the last ordinary token of the line is not `"&"` (so at
least one ordinary token follows the `"&"`), with at most `MAX_ARGS` ordinary
tokens.  In the command `processCommand` builds, the `"&"` is in `args` as an
ordinary argument, at its place among the ordinary tokens, and
`backgroundFlag` is 0 whatever `backgroundMode` is. -/
theorem inner_ampersand_is_argument (backgroundMode pid : Int) (command : CString)
    (pre post : List Item) (last : CString)
    (hlex : lexLine pid command
      = Lexed.tokens (renderItems (pre ++ Item.word "&".toList :: post)))
    (hpre : ∀ w ∈ words pre, w ≠ "<".toList ∧ w ≠ ">".toList)
    (hpost : ∀ w ∈ words post, w ≠ "<".toList ∧ w ≠ ">".toList)
    (hlast : (words post).getLast? = some last) (hne : last ≠ "&".toList)
    (hcap : (words pre).length + 1 + (words post).length ≤ MAX_ARGS) :
    parseLine backgroundMode pid command = Parse.command
      { args := words pre ++ "&".toList :: words post,
        inFile := lastInput (pre ++ Item.word "&".toList :: post) [],
        outFile := lastOutput (pre ++ Item.word "&".toList :: post) [],
        backgroundFlag := 0 } := by
  have hw : words (pre ++ Item.word "&".toList :: post)
      = words pre ++ "&".toList :: words post :=
    (renderItems_append pre (Item.word "&".toList :: post)).2
  have hl := getLast?_append_cons (words pre) "&".toList last (words post) hlast
  have hl2 : ¬ (words pre ++ "&".toList :: words post).getLast? = some "&".toList := by
    rw [hl]
    intro e
    exact hne (Option.some.inj e)
  have hbuild := buildCommand_render backgroundMode (pre ++ Item.word "&".toList :: post)
    (by
      rw [hw]
      intro w hmem
      rcases List.mem_append.1 hmem with h | h
      · exact hpre w h
      · rcases List.mem_cons.1 h with h2 | h2
        · rw [h2]
          decide
        · exact hpost w h2)
    (by rw [hw]; simp)
    (by
      rw [hw, List.length_append, List.length_cons]
      omega)
  rw [hw] at hbuild
  simp only [dropAmpersand, hl2, false_and, if_false] at hbuild
  rw [parseLine_of_tokens _ _ _ _ hlex, hbuild]

/-- A line that meets the hypotheses of `inner_ampersand_is_argument`:
`echo a & b`, in both modes. -/
theorem inner_ampersand_is_argument_witness :
    lexLine 1234 "echo a & b\n".toList
      = Lexed.tokens ["echo".toList, "a".toList, "&".toList, "b".toList] ∧
    parseLine 0 1234 "echo a & b\n".toList = Parse.command
      { args := ["echo".toList, "a".toList, "&".toList, "b".toList], inFile := [],
        outFile := [], backgroundFlag := 0 } ∧
    parseLine 1 1234 "echo a & b\n".toList = Parse.command
      { args := ["echo".toList, "a".toList, "&".toList, "b".toList], inFile := [],
        outFile := [], backgroundFlag := 0 } :=
  ⟨by decide,
   inner_ampersand_is_argument 0 1234 "echo a & b\n".toList
     [Item.word "echo".toList, Item.word "a".toList] [Item.word "b".toList] "b".toList
     (by decide) (by decide) (by decide) (by decide) (by decide) (by decide),
   inner_ampersand_is_argument 1 1234 "echo a & b\n".toList
     [Item.word "echo".toList, Item.word "a".toList] [Item.word "b".toList] "b".toList
     (by decide) (by decide) (by decide) (by decide) (by decide) (by decide)⟩

/-- C14, counterexamples to the claim as stated.  In `sleep 5 & > out.txt`, the
example of the claim, the `"&"` is not the final token of the line, yet it is
the last entry of `args` once the redirection has been taken out: with
`backgroundMode` 0 it is removed from `args` and `backgroundFlag` is 1.  In
`cat < & x` the `"&"` is taken as the input file name and is not in `args`. -/
theorem inner_ampersand_counterexample :
    parseLine 0 1234 "sleep 5 & > out.txt\n".toList = Parse.command
      { args := ["sleep".toList, "5".toList], inFile := [], outFile := "out.txt".toList,
        backgroundFlag := 1 } ∧
    parseLine 0 1234 "cat < & x\n".toList = Parse.command
      { args := ["cat".toList, "x".toList], inFile := "&".toList, outFile := [],
        backgroundFlag := 0 } := by
  decide

/-! ## C15: the foreground-only mode -/

theorem catchSIGTSTP_state (s : ShellState) :
    (catchSIGTSTP s).2 = { s with backgroundMode := if s.backgroundMode = 0 then 1 else 0 } := by
  unfold catchSIGTSTP
  split <;> rfl

theorem catchSIGTSTP_twice (s : ShellState)
    (h : s.backgroundMode = 0 ∨ s.backgroundMode = 1) :
    (catchSIGTSTP (catchSIGTSTP s).2).2 = s := by
  obtain ⟨mode, status, array, index⟩ := s
  simp only at h
  rcases h with h | h <;> subst h <;> rfl

theorem stateAfter_mode : ∀ (actions : List Action) (s : ShellState),
    (s.backgroundMode = 0 ∨ s.backgroundMode = 1) →
    ((stateAfter s actions).backgroundMode = 0 ∨ (stateAfter s actions).backgroundMode = 1)
  | [], _, h => h
  | Action.signal :: more, s, _ => by
    refine stateAfter_mode more (catchSIGTSTP s).2 ?_
    rw [catchSIGTSTP_state]
    by_cases h0 : s.backgroundMode = 0
    · exact Or.inr (by simp [h0])
    · exact Or.inl (by simp [h0])
  | Action.line env command :: more, s, h => by
    unfold stateAfter
    split
    · rename_i s2 hret
      have hstep := mainStep_returned s env command s2 hret
      exact stateAfter_mode more s2 (by rw [hstep.1]; exact h)
    · exact h

/-- C15.  Foreground-only mode is a two-state machine.  It starts in Normal
(`backgroundMode` is 0 initially).  Each run of `catchSIGTSTP` flips it (0
becomes 1, anything else becomes 0) and changes no other global.  After any
sequence of signal deliveries and processed lines from the initial state the
mode is 0 or 1, and two further deliveries in a row give back the same
globals.  A call of `processCommand` that returns leaves the mode as it was,
and so does the handling of a line by `main`. -/
theorem foreground_only_state_machine :
    initialState.backgroundMode = 0 ∧
    (∀ s : ShellState,
      (catchSIGTSTP s).2 = { s with backgroundMode := if s.backgroundMode = 0 then 1 else 0 }) ∧
    (∀ actions : List Action,
      ((stateAfter initialState actions).backgroundMode = 0 ∨
       (stateAfter initialState actions).backgroundMode = 1) ∧
      (catchSIGTSTP (catchSIGTSTP (stateAfter initialState actions)).2).2
        = stateAfter initialState actions) ∧
    (∀ (s s2 : ShellState) (env : Env) (command : CString),
      ((processCommand s env command).outcome = Outcome.returned s2 →
        s2.backgroundMode = s.backgroundMode) ∧
      ((mainStep s env command).outcome = Outcome.returned s2 →
        s2.backgroundMode = s.backgroundMode)) := by
  refine ⟨rfl, catchSIGTSTP_state, fun actions => ?_, fun s s2 env command => ?_⟩
  · have h := stateAfter_mode actions initialState (Or.inl rfl)
    exact ⟨h, catchSIGTSTP_twice _ h⟩
  · exact ⟨fun h => (processCommand_returned s env command s2 h).1,
      fun h => (mainStep_returned s env command s2 h).1⟩

/-! ## C20: the bytes of the notices -/

/-- C20, the code at the failing input: on a delivery in Normal state
`catchSIGTSTP` asks `write` for 50 bytes of a notice of 49 characters, and on
a delivery in foreground-only state for 30 bytes of a notice of 29
characters: each time the NUL that ends the string literal is written after
the characters of the notice. -/
theorem toggle_notice_bytes :
    "Entering foreground-only mode (& is now ignored)\n".toList.length = 49 ∧
    (catchSIGTSTP initialState).1
      = [Event.write
          ("Entering foreground-only mode (& is now ignored)\n".toList ++ [Char.ofNat 0])] ∧
    "Exiting foreground-only mode\n".toList.length = 29 ∧
    (catchSIGTSTP (catchSIGTSTP initialState).2).1
      = [Event.write ("Exiting foreground-only mode\n".toList ++ [Char.ofNat 0])] := by
  decide

/-! ## C16: the sweep -/

theorem sweep_report : ∀ (children : List WaitAnswer) (stop : WaitAnswer)
    (rest : List WaitAnswer) (statusFlag : Nat),
    (∀ w ∈ children, 0 < w.ret) → stop.ret ≤ 0 →
    (sweep (children ++ stop :: rest) statusFlag).1
      = sweepReport children ++ [Event.wait (-1) true stop]
  | [], stop, rest, statusFlag, _, hstop => by
    have h : ¬ stop.ret > 0 := by omega
    simp [sweep, sweepReport, h]
  | w :: more, stop, rest, statusFlag, hch, hstop => by
    have hw : w.ret > 0 := hch w (by simp)
    have ih := sweep_report more stop rest w.status (fun x hx => hch x (by simp [hx])) hstop
    simp only [List.cons_append, sweep, hw, if_true, sweepReport]
    exact congrArg _ (congrArg _ (congrArg _ ih))

/-- C16.  The sweep that follows a launch (lines 382-391) is made if and only if
foreground-only mode is off.  When the mode is on (`backgroundMode` is not
0) nothing is added to what the launch did: no wait, no report, and the
globals are returned as they are.  When it is off and the non-blocking waits
return the children `children` (each with a positive identifier) and then
`stop` (no child), the sweep adds, for each child in that order, the wait
that returned it, the text `background pid P is done: ` and the text
`getStatus` prints for the status word of that child, and ends with the wait
that returned `stop`; the answers after `stop` are not asked for. -/
theorem sweep_reports_each_child (s : ShellState) (env : Env) (before : List Event)
    (children : List WaitAnswer) (stop : WaitAnswer) (rest : List WaitAnswer)
    (hany : env.waitAny = children ++ stop :: rest)
    (hchildren : ∀ w ∈ children, 0 < w.ret) (hstop : stop.ret ≤ 0) :
    (s.backgroundMode ≠ 0 →
      sweepAndReturn s env before = { trace := before, outcome := Outcome.returned s }) ∧
    (s.backgroundMode = 0 →
      (sweepAndReturn s env before).trace
        = before ++ (sweepReport children ++ [Event.wait (-1) true stop])) := by
  constructor
  · intro hmode
    simp only [sweepAndReturn, hmode, if_false]
  · intro hmode
    simp only [sweepAndReturn, hmode, if_true, hany,
      sweep_report children stop rest s.statusFlag hchildren hstop]

/-- A run that meets the hypotheses of `sweep_reports_each_child`: after the
foreground command `ls` (child 4243) two children are ready, 4242 (exit code
0) and 4240 (killed by signal 9); both are reported, in that order, when the
mode is off, and none when it is on. -/
theorem sweep_reports_each_child_witness :
    (processCommand initialState
      (foregroundEnv 4243 0 [{ ret := 4242, status := 0 }, { ret := 4240, status := 9 }])
      "ls\n".toList).trace
      = [Event.fork, Event.wait 4243 false { ret := 4243, status := 0 }] ++
        ([Event.wait (-1) true { ret := 4242, status := 0 },
          Event.write "background pid 4242 is done: ".toList,
          Event.write "exit value 0\n".toList,
          Event.wait (-1) true { ret := 4240, status := 9 },
          Event.write "background pid 4240 is done: ".toList,
          Event.write "terminated by signal 9\n".toList] ++
         [Event.wait (-1) true { ret := 0, status := 0 }]) ∧
    processCommand { initialState with backgroundMode := 1 }
      (foregroundEnv 4243 0 [{ ret := 4242, status := 0 }, { ret := 4240, status := 9 }])
      "ls\n".toList
      = { trace := [Event.fork, Event.wait 4243 false { ret := 4243, status := 0 }],
          outcome := Outcome.returned { initialState with backgroundMode := 1 } } :=
  ⟨(sweep_reports_each_child initialState
      (foregroundEnv 4243 0 [{ ret := 4242, status := 0 }, { ret := 4240, status := 9 }])
      [Event.fork, Event.wait 4243 false { ret := 4243, status := 0 }]
      [{ ret := 4242, status := 0 }, { ret := 4240, status := 9 }] { ret := 0, status := 0 } []
      rfl (by decide) (by decide)).2 rfl,
   (sweep_reports_each_child { initialState with backgroundMode := 1 }
      (foregroundEnv 4243 0 [{ ret := 4242, status := 0 }, { ret := 4240, status := 9 }])
      [Event.fork, Event.wait 4243 false { ret := 4243, status := 0 }]
      [{ ret := 4242, status := 0 }, { ret := 4240, status := 9 }] { ret := 0, status := 0 } []
      rfl (by decide) (by decide)).1 (by decide)⟩

/-! ## C17: the setup in the child -/

/-- With all `MAX_ARGS` entries of `args` in use the child reaches no `execvp`
it could rely on: reading the argument vector runs past the array. -/
theorem execute_full (s : ShellState) (env : Env) (c : Command) (hargs : c.args ≠ [])
    (hfull : ¬ c.args.length < MAX_ARGS) :
    execute s env c = ([], some (Outcome.fault Fault.argsIndex)) := by
  obtain ⟨args, inFile, outFile, flag⟩ := c
  match args, hargs, hfull with
  | file :: more, _, hfull =>
    have hfull2 : ¬ (file :: more).length < MAX_ARGS := hfull
    simp only [execute, hfull2, if_false]

theorem afterLaunches_mode : ∀ (n : Nat) (s : ShellState) (first : Int),
    (afterLaunches s first n).backgroundMode = s.backgroundMode
  | 0, _, _ => rfl
  | n + 1, s, first => by
    rw [afterLaunches, afterLaunches_mode n]
    rfl

/-- One background launch when no slot of the table is free. -/
theorem mainStep_background_full (s : ShellState) (child : Int)
    (hmode : s.backgroundMode = 0) (hfull : ¬ s.processIndex < MAX_ARGS)
    (h1 : child ≠ -1) (h0 : child ≠ 0) :
    (mainStep s (backgroundEnv child) "sleep 100 &\n".toList).outcome
      = Outcome.fault Fault.processArrayIndex := by
  have hp : parseLine s.backgroundMode (backgroundEnv child).pid "sleep 100 &\n".toList
      = Parse.command { args := ["sleep".toList, "100".toList], inFile := [], outFile := [],
                        backgroundFlag := 1 } := by
    rw [hmode]
    exact parseLine_sleep _
  have hm : mainStep s (backgroundEnv child) "sleep 100 &\n".toList
      = processCommand s (backgroundEnv child) "sleep 100 &\n".toList := rfl
  have hfork : (backgroundEnv child).fork = child := rfl
  rw [hm]
  simp only [processCommand, hp, dispatch]
  have e1 : ¬ "sleep".toList = "cd".toList := by decide
  have e2 : ¬ "sleep".toList = "exit".toList := by decide
  have e3 : ¬ "sleep".toList = "status".toList := by decide
  simp only [e1, e2, e3, if_false, launch, hfork, h1, h0, parent, hmode, hfull, and_self,
    if_true]

/-- C18, the code at the failing input.  A session from the initial state in
which `sleep 100 &` is launched 513 times: the first 512 launches fill the
slots 0 to 511 of `processArray`; the 513th (child 1512) is stored by line
367 at `processArray[512]`, outside the array, no test of `processIndex`
against `MAX_ARGS` being made. -/
theorem table_overrun :
    (runSession initialState
      (backgroundLaunches 1000 512 ++ [(backgroundEnv 1512, "sleep 100 &\n".toList)])).outcome
      = Outcome.fault Fault.processArrayIndex := by
  obtain ⟨r1, _, r3⟩ := runSession_backgroundLaunches 512 initialState 1000
    [(backgroundEnv 1512, "sleep 100 &\n".toList)] wellFormed_initial rfl
    (by simp only [initialState, MAX_ARGS]; omega) (by omega)
  have hmode : (afterLaunches initialState 1000 512).backgroundMode = 0 := by
    rw [afterLaunches_mode]
    rfl
  have hfull : ¬ (afterLaunches initialState 1000 512).processIndex < MAX_ARGS := by
    rw [r3]
    simp only [initialState, MAX_ARGS]
    omega
  have hstep := mainStep_background_full _ 1512 hmode hfull (by omega) (by omega)
  rw [r1]
  simp only [runSession, hstep]

/-! ## C19: the capacity of `args` -/

theorem manyWords_reserved (n : Nat) :
    ∀ t ∈ splitSpaces (manyWords n), t ≠ "<".toList ∧ t ≠ ">".toList ∧ t ≠ "&".toList := by
  intro t ht
  rw [splitSpaces_manyWords] at ht
  rw [List.eq_of_mem_replicate ht]
  decide

/-- C19, the code at the failing inputs.  The line of 513 tokens `a` has 1027
characters with its newline, fewer than the 2048 `fgets` may read; its tokens
reach the loop of lines 202-226, which stores the 513th at `args[512]`,
outside the array.  For the line of 512 tokens `a` (1025 characters) every
write is inside the array, but `args` then holds `MAX_ARGS` entries: the
number of tokens is not below `MAX_ARGS` and no slot is left for the `NULL`
that ends the argument vector. -/
theorem argument_array_overrun :
    (manyWords 513 ++ ['\n']).length = 1027 ∧ 1027 ≤ MAX_LENGTH - 1 ∧
    lexLine 1234 (manyWords 513 ++ ['\n']) = Lexed.tokens (List.replicate 513 ['a']) ∧
    buildCommand 0 (List.replicate 513 ['a']) = Parse.fault Fault.argsIndex ∧
    parseLine 0 1234 (manyWords 512 ++ ['\n']) = Parse.command
      { args := List.replicate MAX_ARGS ['a'], inFile := [], outFile := [],
        backgroundFlag := 0 } := by
  have hplain := manyWords_plain 513
  have hsplit := splitSpaces_manyWords 513
  have hlex := (lexLine_of_tokens 1234 (manyWords 513) ['a'] (List.replicate 512 ['a'])
    hplain.1 (by rw [manyWords_succ]; decide) hplain.2
    (by rw [hsplit, List.replicate_succ]) (by decide)).1
  have hparse := parseLine_of_tokens 0 1234 _ _ hlex
  have hfault : parseLine 0 1234 (manyWords 513 ++ ['\n']) = Parse.fault Fault.argsIndex := by
    obtain ⟨r1, r2, _, _⟩ := renderItems_words (['a'] :: List.replicate 512 ['a'])
    have hscan := scanTokens_overrun ((['a'] :: List.replicate 512 ['a']).map Item.word)
      emptyCommand
      (by
        rw [r2]
        intro w hw
        have hw2 : w = ['a'] := by
          rcases List.mem_cons.1 hw with e | e
          · exact e
          · exact List.eq_of_mem_replicate e
        subst hw2
        decide)
      (by simp only [emptyCommand, List.length_nil, MAX_ARGS]; omega)
      (by
        rw [r2]
        simp only [emptyCommand, List.length_nil, List.length_cons, List.length_replicate,
          MAX_ARGS]
        omega)
    rw [r1] at hscan
    rw [hparse]
    simp only [buildCommand, hscan]
  have h512 := (plain_line_round_trip 0 1234 (manyWords 512) (manyWords_plain 512).1
    (manyWords_plain 512).2 (manyWords_reserved 512)
    ⟨['a'], by rw [splitSpaces_manyWords]; rfl, by decide⟩
    (by rw [splitSpaces_manyWords, List.length_replicate]; exact le_rfl)).1
  rw [splitSpaces_manyWords] at h512
  have e513 : List.replicate 513 ['a'] = ['a'] :: List.replicate 512 ['a'] :=
    List.replicate_succ _ _
  refine ⟨?_, by decide, ?_, ?_, h512⟩
  · rw [List.length_append, manyWords_length]
    rfl
  · rw [hlex, e513]
  · rw [← hfault, hparse, e513]

end Homework3
